import Mathlib

/-
  Verification development for the document-editing core of the visual
  page builder: the undoable node tree (store/editorStore.ts), the
  color/gradient codec (components/editor/ColorControl.tsx), and the theme
  token registry / style resolver (ThemeProvider and NodeRenderer).

  Strings from the TypeScript source are modeled as lists of characters.
  JavaScript reference equality on arrays is modeled in two ways: a plain
  value-level model (used for claims about the values the engine computes;
  whenever the reference check and the structural check disagree at run
  time, both branches of the source produce the same value, so the plain
  model is extensionally faithful), and an allocation-tagged model in
  which every object and array carries a numeric identity and every copy
  draws a fresh identity (used for claims about object identity).
-/

namespace WebBuilder

/-! ## Generic helpers -/

/-- The characters of a string literal. -/
def toChars (s : String) : List Char := s.toList

/-- JavaScript `array.slice(-n)`: the last `n` elements (the whole list
when it is shorter). -/
def sliceLast (n : Nat) (l : List α) : List α := l.drop (l.length - n)

/-- JavaScript `array.splice(i, 0, x)`: insert `x` at index `i`, clamped
to the end of the list. -/
def insertAt : Nat → α → List α → List α
  | _, x, [] => [x]
  | 0, x, l => x :: l
  | n + 1, x, a :: l => a :: insertAt n x l

theorem sliceLast_length_le (n : Nat) (l : List α) : (sliceLast n l).length ≤ n := by
  unfold sliceLast
  rw [List.length_drop]
  omega

theorem sliceLast_of_length_le (n : Nat) (l : List α) (h : l.length ≤ n) :
    sliceLast n l = l := by
  unfold sliceLast
  have : l.length - n = 0 := by omega
  rw [this, List.drop_zero]

/-! ## Property bags

JavaScript object spread `\x7b...base, ...updates\x7d` over string-keyed
records: keys of `base` keep their position, keys of `updates` override in
place when present and are appended in order otherwise. -/

/-- Set one key of a string-keyed record, preserving key order. -/
def setProp : List (String × String) → String → String → List (String × String)
  | [], k, v => [(k, v)]
  | (k', v') :: rest, k, v =>
    if k' = k then (k, v) :: rest else (k', v') :: setProp rest k v

/-- JavaScript object spread of `updates` over `base`. -/
def mergeProps (base updates : List (String × String)) : List (String × String) :=
  updates.foldl (fun acc kv => setProp acc kv.1 kv.2) base

theorem mergeProps_nil (base : List (String × String)) : mergeProps base [] = base := rfl

/-! ## The node tree (models/Node.ts)

`Node` is `id`, `type`, `name`, an optional string-to-string `props`
record and an optional `children` array. -/

inductive Node where
  | mk (id : String) (ntype : String) (name : String)
      (props : Option (List (String × String)))
      (children : Option (List Node)) : Node

mutual

def nodeDecEq : (a b : Node) → Decidable (a = b)
  | .mk i1 t1 n1 p1 c1, .mk i2 t2 n2 p2 c2 =>
    haveI hc : Decidable (c1 = c2) := optNodeListDecEq c1 c2
    decidable_of_iff (i1 = i2 ∧ t1 = t2 ∧ n1 = n2 ∧ p1 = p2 ∧ c1 = c2)
      (by rw [Node.mk.injEq])

def optNodeListDecEq : (a b : Option (List Node)) → Decidable (a = b)
  | none, none => isTrue rfl
  | none, some _ => isFalse (by simp)
  | some _, none => isFalse (by simp)
  | some xs, some ys =>
    haveI := listNodeDecEq xs ys
    decidable_of_iff (xs = ys) (by simp)

def listNodeDecEq : (a b : List Node) → Decidable (a = b)
  | [], [] => isTrue rfl
  | [], _ :: _ => isFalse (by simp)
  | _ :: _, [] => isFalse (by simp)
  | x :: xs, y :: ys =>
    haveI h1 := nodeDecEq x y
    haveI h2 := listNodeDecEq xs ys
    decidable_of_iff (x = y ∧ xs = ys) (by rw [List.cons.injEq])

end

instance : DecidableEq Node := nodeDecEq

def Node.id : Node → String
  | .mk i _ _ _ _ => i

def Node.ntype : Node → String
  | .mk _ t _ _ _ => t

def Node.name : Node → String
  | .mk _ _ nm _ _ => nm

def Node.props : Node → Option (List (String × String))
  | .mk _ _ _ p _ => p

def Node.children : Node → Option (List Node)
  | .mk _ _ _ _ c => c

mutual

/-- Does `nodeId` occur anywhere in the subtree rooted at this node? -/
def nodeContains (nodeId : String) : Node → Bool
  | .mk i _ _ _ c =>
    i = nodeId ||
      match c with
      | none => false
      | some children => listContains nodeId children

/-- Does `nodeId` occur anywhere in the forest? -/
def listContains (nodeId : String) : List Node → Bool
  | [] => false
  | n :: rest => nodeContains nodeId n || listContains nodeId rest

end

/-! ### updateNodeTree (editorStore.ts lines 38 to 62)

The source maps over the list; a node whose id matches is replaced by
`updater(node)`, a node without children is returned as is, and otherwise
the children are rewritten recursively and the node is copied when the
rewritten children differ. -/

mutual

def updateNodeOne (nodeId : String) (updater : Node → Node) : Node → Node
  | .mk i t nm p c =>
    if i = nodeId then updater (.mk i t nm p c)
    else
      match c with
      | none => .mk i t nm p none
      | some children =>
        let nextChildren := updateNodeTree nodeId updater children
        if nextChildren = children then .mk i t nm p (some children)
        else .mk i t nm p (some nextChildren)

def updateNodeTree (nodeId : String) (updater : Node → Node) : List Node → List Node
  | [] => []
  | n :: rest => updateNodeOne nodeId updater n :: updateNodeTree nodeId updater rest

end

/-! ### addNodeToTree (editorStore.ts lines 64 to 93)

The boolean result models the `didInsert` flag; the source returns the
original array when the flag stayed false, and the reference check
`nextChildren === node.children` on the recursive call is exactly the
recursive flag. -/

mutual

def addNodeOne (containerId : String) (toAdd : Node) : Node → Node × Bool
  | .mk i t nm p c =>
    if i = containerId then
      (.mk i t nm p (some (c.getD [] ++ [toAdd])), true)
    else
      match c with
      | none => (.mk i t nm p none, false)
      | some children =>
        let res := addNodeList containerId toAdd children
        if res.2 then (.mk i t nm p (some res.1), true)
        else (.mk i t nm p (some children), false)

def addNodeList (containerId : String) (toAdd : Node) : List Node → List Node × Bool
  | [] => ([], false)
  | n :: rest =>
    let rn := addNodeOne containerId toAdd n
    let rr := addNodeList containerId toAdd rest
    (rn.1 :: rr.1, rn.2 || rr.2)

end

def addNodeToTree (nodes : List Node) (containerId : String) (toAdd : Node) : List Node :=
  let res := addNodeList containerId toAdd nodes
  if res.2 then res.1 else nodes

/-! ### reorderNodes (editorStore.ts lines 95 to 109) -/

/-- JavaScript `Array.prototype.findIndex`, with not-found (`-1`) as
`none`. -/
def findIndex (p : α → Bool) : List α → Option Nat
  | [] => none
  | a :: l => if p a then some 0 else (findIndex p l).map (· + 1)

def reorderNodes (nodes : List Node) (sourceId targetId : String) : List Node :=
  match findIndex (fun n => n.id = sourceId) nodes, findIndex (fun n => n.id = targetId) nodes with
  | some sourceIndex, some targetIndex =>
    if sourceIndex = targetIndex then nodes
    else
      match nodes.get? sourceIndex with
      | none => nodes
      | some moved =>
        let rest := nodes.eraseIdx sourceIndex
        let insertIndex := if sourceIndex < targetIndex then targetIndex - 1 else targetIndex
        insertAt insertIndex moved rest
  | _, _ => nodes

/-! ### moveNodeInTree (editorStore.ts lines 111 to 151)

At the named parent the source reorders `node.children ?? []`; when the
node has no children array, the reordered empty array is a fresh array,
the reference check against `undefined` fails, and the node is given an
empty children array. -/

mutual

def moveNodeOne (parentId sourceId targetId : String) : Node → Node × Bool
  | .mk i t nm p c =>
    if i = parentId then
      match c with
      | none =>
        -- reorder of the defaulted fresh empty array; it is never
        -- reference-equal to the missing children field
        (.mk i t nm p (some (reorderNodes [] sourceId targetId)), true)
      | some children =>
        let nextChildren := reorderNodes children sourceId targetId
        if nextChildren = children then (.mk i t nm p (some children), false)
        else (.mk i t nm p (some nextChildren), true)
    else
      match c with
      | none => (.mk i t nm p none, false)
      | some children =>
        let res := moveNodeList parentId sourceId targetId children
        if res.2 then (.mk i t nm p (some res.1), true)
        else (.mk i t nm p (some children), false)

def moveNodeList (parentId sourceId targetId : String) : List Node → List Node × Bool
  | [] => ([], false)
  | n :: rest =>
    let rn := moveNodeOne parentId sourceId targetId n
    let rr := moveNodeList parentId sourceId targetId rest
    (rn.1 :: rr.1, rn.2 || rr.2)

end

/-- The guard `if (!parentId)` (editorStore.ts line 117) is a falsy
test: it takes the root branch for a null parent id AND for the empty
string. -/
def moveNodeInTree (nodes : List Node) (parentId : Option String)
    (sourceId targetId : String) : List Node :=
  match parentId with
  | none => reorderNodes nodes sourceId targetId
  | some pid =>
    if pid = "" then reorderNodes nodes sourceId targetId
    else
      let res := moveNodeList pid sourceId targetId nodes
      if res.2 then res.1 else nodes

/-! ## The editor store (store/editorStore.ts lines 153 to 322)

The zustand store holds the document state, the two history stacks and,
in the closure of `create`, the mutable `pendingSnapshot` used by the
debounced history mode. The debounce timer itself is modeled separately
for the timed claims; here its expiry is an explicit `timerFire` event. -/

def HISTORY_LIMIT : Nat := 50

def HISTORY_DEBOUNCE_MS : Nat := 200

structure EditorSnapshot where
  nodes : List Node
  selectedNodeId : Option String
  currentPageId : Option String
deriving DecidableEq

structure EngineState where
  nodes : List Node
  selectedNodeId : Option String
  currentPageId : Option String
  historyPast : List EditorSnapshot
  historyFuture : List EditorSnapshot
  pendingSnapshot : Option EditorSnapshot
deriving DecidableEq

def initialEngineState : EngineState :=
  { nodes := [], selectedNodeId := none, currentPageId := none,
    historyPast := [], historyFuture := [], pendingSnapshot := none }

def snapshotState (st : EngineState) : EditorSnapshot :=
  { nodes := st.nodes, selectedNodeId := st.selectedNodeId, currentPageId := st.currentPageId }

/-- editorStore.ts lines 163 to 176: commit the pending debounced
snapshot, if any, onto the past stack and cancel the timer. -/
def commitPendingSnapshot (st : EngineState) : EngineState :=
  match st.pendingSnapshot with
  | none => st
  | some snapshot =>
    { st with
      pendingSnapshot := none,
      historyPast := sliceLast HISTORY_LIMIT (st.historyPast ++ [snapshot]) }

/-- editorStore.ts lines 178 to 196, the synchronous part of
`queueSnapshot`: capture the pending snapshot on the first call of a
burst. The timer reset is modeled in the timed layer. -/
def queueSnapshot (st : EngineState) : EngineState :=
  match st.pendingSnapshot with
  | some _ => st
  | none => { st with pendingSnapshot := some (snapshotState st) }

/-- editorStore.ts lines 185 to 195, the timer callback: commit the
pending snapshot onto the past stack. -/
def timerFire (st : EngineState) : EngineState :=
  match st.pendingSnapshot with
  | none => st
  | some snapshot =>
    { st with
      pendingSnapshot := none,
      historyPast := sliceLast HISTORY_LIMIT (st.historyPast ++ [snapshot]) }

/-- editorStore.ts lines 198 to 204: push a snapshot of the current state
onto the past stack and clear the future stack. -/
def pushSnapshot (st : EngineState) : EngineState :=
  let st1 := commitPendingSnapshot st
  { st1 with
    historyPast := sliceLast HISTORY_LIMIT (st1.historyPast ++ [snapshotState st1]),
    historyFuture := [] }

inductive HistoryMode where
  | immediate
  | debounced
  | noRecord
deriving DecidableEq

/-- The updater passed by `updateNodeProps` (editorStore.ts lines 249
to 255): spread the patch over the current props, defaulting a missing
props record to an empty one. -/
def updatePropsFn (updates : List (String × String)) : Node → Node
  | .mk i t nm p c => .mk i t nm (some (mergeProps (p.getD []) updates)) c

/-- editorStore.ts lines 237 to 257. -/
def updateNodeProps (st : EngineState) (nodeId : String)
    (updates : List (String × String)) (mode : HistoryMode) : EngineState :=
  let st1 :=
    match mode with
    | .immediate => pushSnapshot st
    | .debounced => { queueSnapshot st with historyFuture := [] }
    | .noRecord => st
  { st1 with nodes := updateNodeTree nodeId (updatePropsFn updates) st1.nodes }

/-- editorStore.ts lines 258 to 266. -/
def updateNodeName (st : EngineState) (nodeId : String) (name : String) : EngineState :=
  let st1 := pushSnapshot st
  { st1 with
    nodes := updateNodeTree nodeId
      (fun n => .mk n.id n.ntype name n.props n.children) st1.nodes }

/-- editorStore.ts lines 267 to 273. -/
def addNode (st : EngineState) (node : Node) : EngineState :=
  let st1 := pushSnapshot st
  { st1 with nodes := st1.nodes ++ [node], selectedNodeId := some node.id }

/-- editorStore.ts lines 274 to 280. -/
def addNodeToContainer (st : EngineState) (containerId : String) (node : Node) : EngineState :=
  let st1 := pushSnapshot st
  { st1 with
    nodes := addNodeToTree st1.nodes containerId node,
    selectedNodeId := some node.id }

/-- editorStore.ts lines 281 to 286. -/
def moveNodeWithinParent (st : EngineState) (parentId : Option String)
    (sourceId targetId : String) : EngineState :=
  let st1 := pushSnapshot st
  { st1 with nodes := moveNodeInTree st1.nodes parentId sourceId targetId }

/-- editorStore.ts lines 212 to 220. -/
def setSelectedNodeId (st : EngineState) (nodeId : Option String) : EngineState :=
  if st.selectedNodeId = nodeId then st
  else { pushSnapshot st with selectedNodeId := nodeId }

/-- editorStore.ts lines 221 to 230. -/
def setCurrentPageId (st : EngineState) (pageId : Option String) : EngineState :=
  if st.currentPageId = pageId then st
  else { pushSnapshot st with currentPageId := pageId, selectedNodeId := none }

/-- editorStore.ts lines 231 to 236. -/
def setNodes (st : EngineState) (nodes : List Node) : EngineState :=
  let st1 := pushSnapshot st
  { st1 with nodes := nodes }

/-- The `set` callback of `undo` (editorStore.ts lines 289 to 302): on a
non-empty past stack, pop its top, push the current state onto the future
stack, and restore the popped snapshot. -/
def undoCore (st1 : EngineState) : EngineState :=
  match st1.historyPast.getLast? with
  | none => st1
  | some previous =>
    { nodes := previous.nodes,
      selectedNodeId := previous.selectedNodeId,
      currentPageId := previous.currentPageId,
      historyPast := st1.historyPast.dropLast,
      historyFuture := snapshotState st1 :: st1.historyFuture,
      pendingSnapshot := none }

/-- editorStore.ts lines 287 to 303. -/
def undo (st : EngineState) : EngineState :=
  undoCore (commitPendingSnapshot st)

/-- The `set` callback of `redo` (editorStore.ts lines 306 to 319): on a
non-empty future stack, shift its head, push the current state onto the
past stack, and restore the shifted snapshot. -/
def redoCore (st1 : EngineState) : EngineState :=
  match st1.historyFuture with
  | [] => st1
  | next :: remaining =>
    { nodes := next.nodes,
      selectedNodeId := next.selectedNodeId,
      currentPageId := next.currentPageId,
      historyPast := sliceLast HISTORY_LIMIT (st1.historyPast ++ [snapshotState st1]),
      historyFuture := remaining,
      pendingSnapshot := none }

/-- editorStore.ts lines 304 to 320. -/
def redo (st : EngineState) : EngineState :=
  redoCore (commitPendingSnapshot st)

/-! ## Operation sequences

One event of the engine: a public store operation, or the expiry of the
debounce timer. -/

inductive Op where
  | opSetSelectedNodeId (nodeId : Option String)
  | opSetCurrentPageId (pageId : Option String)
  | opSetNodes (nodes : List Node)
  | opUpdateNodeProps (nodeId : String) (updates : List (String × String)) (mode : HistoryMode)
  | opUpdateNodeName (nodeId : String) (name : String)
  | opAddNode (node : Node)
  | opAddNodeToContainer (containerId : String) (node : Node)
  | opMoveNodeWithinParent (parentId : Option String) (sourceId targetId : String)
  | opUndo
  | opRedo
  | opTimerFire

def step (st : EngineState) : Op → EngineState
  | .opSetSelectedNodeId nodeId => setSelectedNodeId st nodeId
  | .opSetCurrentPageId pageId => setCurrentPageId st pageId
  | .opSetNodes nodes => setNodes st nodes
  | .opUpdateNodeProps nodeId updates mode => updateNodeProps st nodeId updates mode
  | .opUpdateNodeName nodeId name => updateNodeName st nodeId name
  | .opAddNode node => addNode st node
  | .opAddNodeToContainer containerId node => addNodeToContainer st containerId node
  | .opMoveNodeWithinParent parentId sourceId targetId =>
      moveNodeWithinParent st parentId sourceId targetId
  | .opUndo => undo st
  | .opRedo => redo st
  | .opTimerFire => timerFire st

def run (ops : List Op) : EngineState := ops.foldl step initialEngineState

/-! ## History-bound invariant -/

theorem sliceLast_length_le_self (n : Nat) (l : List α) :
    (sliceLast n l).length ≤ l.length := by
  unfold sliceLast
  rw [List.length_drop]
  omega

/-- Invariant maintained by every engine event: the past stack never
exceeds the limit, past and future together never exceed the limit, and a
pending debounced snapshot can only exist while the future stack is empty
(every path that sets the pending snapshot also clears the future). -/
def HistoryInv (st : EngineState) : Prop :=
  st.historyPast.length ≤ HISTORY_LIMIT ∧
  st.historyPast.length + st.historyFuture.length ≤ HISTORY_LIMIT ∧
  (st.pendingSnapshot = none ∨ st.historyFuture = [])

theorem commit_historyFuture (st : EngineState) :
    (commitPendingSnapshot st).historyFuture = st.historyFuture := by
  unfold commitPendingSnapshot
  cases st.pendingSnapshot <;> rfl

theorem commit_pendingSnapshot (st : EngineState) :
    (commitPendingSnapshot st).pendingSnapshot = none ∨ commitPendingSnapshot st = st := by
  unfold commitPendingSnapshot
  cases st.pendingSnapshot
  · exact Or.inr rfl
  · exact Or.inl rfl

theorem historyInv_commit {st : EngineState} (h : HistoryInv st) :
    HistoryInv (commitPendingSnapshot st) := by
  obtain ⟨h1, h2, h3⟩ := h
  unfold commitPendingSnapshot
  cases hp : st.pendingSnapshot with
  | none => exact ⟨h1, h2, Or.inl hp⟩
  | some s =>
    rcases h3 with h3 | h3
    · rw [hp] at h3; cases h3
    · refine ⟨sliceLast_length_le _ _, ?_, Or.inl rfl⟩
      simp only [h3]
      simpa using sliceLast_length_le HISTORY_LIMIT (st.historyPast ++ [s])

theorem historyInv_push (st : EngineState) : HistoryInv (pushSnapshot st) := by
  unfold pushSnapshot
  exact ⟨sliceLast_length_le _ _, by simpa using sliceLast_length_le _ _, Or.inr rfl⟩

theorem historyInv_queueClear {st : EngineState} (h1 : st.historyPast.length ≤ HISTORY_LIMIT) :
    HistoryInv { queueSnapshot st with historyFuture := [] } := by
  unfold HistoryInv queueSnapshot
  cases st.pendingSnapshot <;> simp <;> omega

theorem timerFire_eq_commit (st : EngineState) :
    timerFire st = commitPendingSnapshot st := by
  unfold timerFire commitPendingSnapshot
  cases st.pendingSnapshot <;> rfl

theorem historyInv_undoCore {st1 : EngineState} (h : HistoryInv st1) :
    HistoryInv (undoCore st1) := by
  obtain ⟨c1, c2, c3⟩ := h
  unfold undoCore
  cases hl : st1.historyPast.getLast? with
  | none => exact ⟨c1, c2, c3⟩
  | some previous =>
    have hne : st1.historyPast ≠ [] := by
      intro hnil
      rw [hnil] at hl
      simp at hl
    have hlen : 0 < st1.historyPast.length := List.length_pos.mpr hne
    unfold HistoryInv
    refine ⟨?_, ?_, Or.inl rfl⟩
    · simp only [List.length_dropLast]
      omega
    · simp only [List.length_dropLast, List.length_cons]
      omega

theorem historyInv_undo {st : EngineState} (h : HistoryInv st) : HistoryInv (undo st) :=
  historyInv_undoCore (historyInv_commit h)

theorem historyInv_redoCore {st1 : EngineState} (h : HistoryInv st1) :
    HistoryInv (redoCore st1) := by
  obtain ⟨c1, c2, c3⟩ := h
  unfold redoCore
  cases hf : st1.historyFuture with
  | nil => exact ⟨c1, c2, c3⟩
  | cons next remaining =>
    unfold HistoryInv
    refine ⟨sliceLast_length_le _ _, ?_, Or.inl rfl⟩
    have hb := sliceLast_length_le_self HISTORY_LIMIT
      (st1.historyPast ++ [snapshotState st1])
    rw [List.length_append, List.length_singleton] at hb
    rw [hf, List.length_cons] at c2
    simp only []
    omega

theorem historyInv_redo {st : EngineState} (h : HistoryInv st) : HistoryInv (redo st) :=
  historyInv_redoCore (historyInv_commit h)

theorem historyInv_step {st : EngineState} (h : HistoryInv st) (op : Op) :
    HistoryInv (step st op) := by
  obtain ⟨h1, h2, h3⟩ := h
  cases op with
  | opSetSelectedNodeId nodeId =>
    simp only [step]
    unfold setSelectedNodeId
    split
    · exact ⟨h1, h2, h3⟩
    · exact historyInv_push st
  | opSetCurrentPageId pageId =>
    simp only [step]
    unfold setCurrentPageId
    split
    · exact ⟨h1, h2, h3⟩
    · exact historyInv_push st
  | opSetNodes nodes =>
    simp only [step]
    exact historyInv_push st
  | opUpdateNodeProps nodeId updates mode =>
    simp only [step]
    cases mode with
    | immediate => exact historyInv_push st
    | debounced => exact historyInv_queueClear h1
    | noRecord => exact ⟨h1, h2, h3⟩
  | opUpdateNodeName nodeId name =>
    simp only [step]
    exact historyInv_push st
  | opAddNode node =>
    simp only [step]
    exact historyInv_push st
  | opAddNodeToContainer containerId node =>
    simp only [step]
    exact historyInv_push st
  | opMoveNodeWithinParent parentId sourceId targetId =>
    simp only [step]
    exact historyInv_push st
  | opUndo =>
    simp only [step]
    exact historyInv_undo ⟨h1, h2, h3⟩
  | opRedo =>
    simp only [step]
    exact historyInv_redo ⟨h1, h2, h3⟩
  | opTimerFire =>
    simp only [step]
    rw [timerFire_eq_commit]
    exact historyInv_commit ⟨h1, h2, h3⟩

theorem historyInv_initial : HistoryInv initialEngineState := by
  refine ⟨?_, ?_, Or.inl rfl⟩ <;> simp [initialEngineState, HISTORY_LIMIT]

theorem historyInv_run (ops : List Op) : HistoryInv (run ops) := by
  unfold run
  induction ops using List.reverseRecOn with
  | nil => exact historyInv_initial
  | append_singleton ops op ih =>
    rw [List.foldl_append, List.foldl_cons, List.foldl_nil]
    exact historyInv_step ih op

/-! ## The 60 mutations / 60 undos scenario -/

def scenarioNode : Node := .mk "a" "text" "A" (some []) none

def scenarioInit : EngineState := { initialEngineState with nodes := [scenarioNode] }

def scenarioOps : List Op :=
  ((List.range 60).map fun i => Op.opUpdateNodeProps "a" [("step", toString i)] .immediate)
  ++ List.replicate 60 Op.opUndo

def scenarioRun : EngineState := scenarioOps.foldl step scenarioInit

/-! ## Helper lemmas about the store operations -/

theorem commit_of_pending_none {st : EngineState} (h : st.pendingSnapshot = none) :
    commitPendingSnapshot st = st := by
  unfold commitPendingSnapshot
  rw [h]

theorem snapshotState_commit (st : EngineState) :
    snapshotState (commitPendingSnapshot st) = snapshotState st := by
  unfold commitPendingSnapshot
  cases st.pendingSnapshot <;> rfl

mutual

theorem updateNodeOne_of_not_contains (nodeId : String) (updater : Node → Node) :
    ∀ n : Node, nodeContains nodeId n = false → updateNodeOne nodeId updater n = n
  | .mk i t nm p c, h => by
    unfold nodeContains at h
    simp only [Bool.or_eq_false_iff, decide_eq_false_iff_not] at h
    unfold updateNodeOne
    rw [if_neg h.1]
    match c with
    | none => rfl
    | some ch =>
      have hch := updateNodeTree_of_not_contains nodeId updater ch h.2
      simp only [hch, if_pos]

theorem updateNodeTree_of_not_contains (nodeId : String) (updater : Node → Node) :
    ∀ ns : List Node, listContains nodeId ns = false →
      updateNodeTree nodeId updater ns = ns
  | [], _ => rfl
  | n :: rest, h => by
    unfold listContains at h
    simp only [Bool.or_eq_false_iff] at h
    unfold updateNodeTree
    rw [updateNodeOne_of_not_contains nodeId updater n h.1,
      updateNodeTree_of_not_contains nodeId updater rest h.2]

end

mutual

theorem addNodeOne_of_not_contains (cid : String) (x : Node) :
    ∀ n : Node, nodeContains cid n = false → addNodeOne cid x n = (n, false)
  | .mk i t nm p c, h => by
    unfold nodeContains at h
    simp only [Bool.or_eq_false_iff, decide_eq_false_iff_not] at h
    unfold addNodeOne
    rw [if_neg h.1]
    match c with
    | none => rfl
    | some ch =>
      have hch := addNodeList_of_not_contains cid x ch h.2
      simp [hch]

theorem addNodeList_of_not_contains (cid : String) (x : Node) :
    ∀ ns : List Node, listContains cid ns = false → addNodeList cid x ns = (ns, false)
  | [], _ => rfl
  | n :: rest, h => by
    unfold listContains at h
    simp only [Bool.or_eq_false_iff] at h
    unfold addNodeList
    rw [addNodeOne_of_not_contains cid x n h.1,
      addNodeList_of_not_contains cid x rest h.2]
    rfl

end

theorem addNodeToTree_of_not_contains {ns : List Node} {cid : String} (x : Node)
    (h : listContains cid ns = false) : addNodeToTree ns cid x = ns := by
  unfold addNodeToTree
  rw [addNodeList_of_not_contains cid x ns h]
  rfl

/-- A reorder whose source or target index is missing, or whose indices
coincide, returns the list unchanged. -/
theorem reorderNodes_noop {ns : List Node} {s t : String}
    (h : findIndex (fun n => n.id = s) ns = none ∨
      findIndex (fun n => n.id = t) ns = none ∨
      findIndex (fun n => n.id = s) ns = findIndex (fun n => n.id = t) ns) :
    reorderNodes ns s t = ns := by
  unfold reorderNodes
  rcases h with h | h | h
  · rw [h]
  · rw [h]
    cases findIndex (fun n => n.id = s) ns <;> rfl
  · rw [h]
    cases findIndex (fun n => n.id = t) ns with
    | none => rfl
    | some ti => simp

/-! The condition under which `moveNodeInTree` with a named parent leaves
the tree unchanged: every node carrying the parent id has a children
array from which the source id or the target id is missing. (A childless
node carrying the parent id is excluded: the source would hand it a fresh
empty children array.) -/

mutual

def moveNoOpAt (parentId sourceId targetId : String) : Node → Bool
  | .mk i _ _ _ c =>
    if i = parentId then
      match c with
      | none => false
      | some ch =>
        decide (findIndex (fun n => n.id = sourceId) ch = none) ||
        decide (findIndex (fun n => n.id = targetId) ch = none)
    else
      match c with
      | none => true
      | some ch => moveNoOpList parentId sourceId targetId ch

def moveNoOpList (parentId sourceId targetId : String) : List Node → Bool
  | [] => true
  | n :: rest =>
    moveNoOpAt parentId sourceId targetId n && moveNoOpList parentId sourceId targetId rest

end

mutual

theorem moveNodeOne_of_noOp (parentId sourceId targetId : String) :
    ∀ n : Node, moveNoOpAt parentId sourceId targetId n = true →
      moveNodeOne parentId sourceId targetId n = (n, false)
  | .mk i t nm p c, h => by
    unfold moveNoOpAt at h
    unfold moveNodeOne
    by_cases hp : i = parentId
    · rw [if_pos hp] at h ⊢
      match c with
      | none => simp at h
      | some ch =>
        simp only [Bool.or_eq_true, decide_eq_true_eq] at h
        have := @reorderNodes_noop ch sourceId targetId (by
          rcases h with h | h
          · exact Or.inl h
          · exact Or.inr (Or.inl h))
        simp only [this, if_pos]
    · rw [if_neg hp] at h ⊢
      match c with
      | none => rfl
      | some ch =>
        have hch := moveNodeList_of_noOp parentId sourceId targetId ch h
        simp [hch]

theorem moveNodeList_of_noOp (parentId sourceId targetId : String) :
    ∀ ns : List Node, moveNoOpList parentId sourceId targetId ns = true →
      moveNodeList parentId sourceId targetId ns = (ns, false)
  | [], _ => rfl
  | n :: rest, h => by
    unfold moveNoOpList at h
    simp only [Bool.and_eq_true] at h
    unfold moveNodeList
    rw [moveNodeOne_of_noOp parentId sourceId targetId n h.1,
      moveNodeList_of_noOp parentId sourceId targetId rest h.2]
    rfl

end

/-- With a named parent satisfying the no-op condition the tree is
returned unchanged. -/
theorem moveNodeInTree_of_noOp {ns : List Node} {pid sourceId targetId : String}
    (hpid : pid ≠ "") (h : moveNoOpList pid sourceId targetId ns = true) :
    moveNodeInTree ns (some pid) sourceId targetId = ns := by
  simp only [moveNodeInTree]
  rw [if_neg hpid, moveNodeList_of_noOp pid sourceId targetId ns h]
  rfl

/-- Deleting an element at an index different from the first index found
by a search shifts that found index down exactly when the deletion
happened before it. -/
theorem findIndex_eraseIdx {α : Type} (q : α → Bool) :
    ∀ (l : List α) (i j : Nat), findIndex q l = some j → i ≠ j →
      findIndex q (l.eraseIdx i) = some (if i < j then j - 1 else j)
  | [], _, _, h, _ => by simp [findIndex] at h
  | a :: rest, i, j, h, hij => by
    unfold findIndex at h
    by_cases hq : q a
    · rw [if_pos hq] at h
      have hj : j = 0 := by
        cases h
        rfl
      subst hj
      match i, hij with
      | i' + 1, _ =>
        simp only [List.eraseIdx]
        unfold findIndex
        rw [if_pos hq]
        simp
    · rw [if_neg hq] at h
      match hr : findIndex q rest with
      | none => rw [hr] at h; simp at h
      | some j' =>
        rw [hr] at h
        simp only [Option.map] at h
        have hj : j = j' + 1 := by
          cases h
          rfl
        subst hj
        match i with
        | 0 =>
          simp only [List.eraseIdx]
          rw [hr]
          simp
        | i' + 1 =>
          have hij' : i' ≠ j' := by omega
          simp only [List.eraseIdx]
          unfold findIndex
          rw [if_neg hq, findIndex_eraseIdx q rest i' j' hr hij']
          by_cases hlt : i' < j'
          · rw [if_pos hlt, if_pos (by omega : i' + 1 < j' + 1)]
            simp only [Option.map]
            congr 1
            omega
          · rw [if_neg hlt, if_neg (by omega : ¬ (i' + 1 < j' + 1))]
            rfl

theorem pushSnapshot_of_pending_none {st : EngineState} (hpend : st.pendingSnapshot = none) :
    pushSnapshot st =
      { st with
          historyPast := sliceLast HISTORY_LIMIT (st.historyPast ++ [snapshotState st]),
          historyFuture := [] } := by
  unfold pushSnapshot
  rw [commit_of_pending_none hpend]

theorem pushSnapshot_evicts {st : EngineState} (hpend : st.pendingSnapshot = none)
    (hlen : st.historyPast.length = HISTORY_LIMIT) :
    (pushSnapshot st).historyPast = st.historyPast.tail ++ [snapshotState st] := by
  rw [pushSnapshot_of_pending_none hpend]
  show sliceLast HISTORY_LIMIT (st.historyPast ++ [snapshotState st]) = _
  unfold sliceLast
  rw [List.length_append, List.length_singleton, hlen]
  have h1 : HISTORY_LIMIT + 1 - HISTORY_LIMIT = 1 := by decide
  have h2 : 1 ≤ st.historyPast.length := by rw [hlen]; decide
  rw [h1, List.drop_append_of_le_length h2, List.drop_one]

/-! ## Claim theorems -/

/-- C1: on a subject id that cannot be found, the tree mutations leave
the document nodes unchanged as claimed, but they do not leave history
untouched: the source calls pushSnapshot unconditionally before looking
for the subject, so a snapshot of the (unchanged) state is still pushed
onto the past stack, the future stack is still cleared, and
addNodeToContainer still selects the id of the node it failed to insert.
Stated here for updateNodeProps with an id absent from the tree,
addNodeToContainer with an unresolvable container id, and
moveNodeWithinParent for the root list and for a named nonempty parent
id whose child list is missing the source or the target. An empty
parent id is NOT a named parent: the falsy test of the source routes it
to the root branch, so it reorders the root list exactly like a null
parent id (final conjunct). -/
theorem missing_subject_keeps_nodes_touches_history :
    (∀ (st : EngineState) (nodeId : String) (updates : List (String × String)),
      st.pendingSnapshot = none → listContains nodeId st.nodes = false →
      updateNodeProps st nodeId updates .immediate =
        { st with
            historyPast := sliceLast HISTORY_LIMIT (st.historyPast ++ [snapshotState st]),
            historyFuture := [] }) ∧
    (∀ (st : EngineState) (containerId : String) (node : Node),
      st.pendingSnapshot = none → listContains containerId st.nodes = false →
      addNodeToContainer st containerId node =
        { st with
            historyPast := sliceLast HISTORY_LIMIT (st.historyPast ++ [snapshotState st]),
            historyFuture := [],
            selectedNodeId := some node.id }) ∧
    (∀ (st : EngineState) (sourceId targetId : String),
      st.pendingSnapshot = none →
      (findIndex (fun n => n.id = sourceId) st.nodes = none ∨
        findIndex (fun n => n.id = targetId) st.nodes = none) →
      moveNodeWithinParent st none sourceId targetId =
        { st with
            historyPast := sliceLast HISTORY_LIMIT (st.historyPast ++ [snapshotState st]),
            historyFuture := [] }) ∧
    (∀ (st : EngineState) (pid sourceId targetId : String),
      pid ≠ "" →
      st.pendingSnapshot = none →
      moveNoOpList pid sourceId targetId st.nodes = true →
      moveNodeWithinParent st (some pid) sourceId targetId =
        { st with
            historyPast := sliceLast HISTORY_LIMIT (st.historyPast ++ [snapshotState st]),
            historyFuture := [] }) ∧
    (∀ (st : EngineState) (sourceId targetId : String),
      moveNodeWithinParent st (some "") sourceId targetId =
        moveNodeWithinParent st none sourceId targetId) := by
  refine ⟨?_, ?_, ?_, ?_, fun st sourceId targetId => rfl⟩
  · intro st nodeId updates hpend habs
    show { pushSnapshot st with
        nodes := updateNodeTree nodeId (updatePropsFn updates) (pushSnapshot st).nodes } = _
    rw [pushSnapshot_of_pending_none hpend]
    show { st with
        historyPast := sliceLast HISTORY_LIMIT (st.historyPast ++ [snapshotState st]),
        historyFuture := [],
        nodes := updateNodeTree nodeId (updatePropsFn updates) st.nodes } = _
    rw [updateNodeTree_of_not_contains nodeId (updatePropsFn updates) st.nodes habs]
  · intro st containerId node hpend habs
    show { pushSnapshot st with
        nodes := addNodeToTree (pushSnapshot st).nodes containerId node,
        selectedNodeId := some node.id } = _
    rw [pushSnapshot_of_pending_none hpend]
    show { st with
        historyPast := sliceLast HISTORY_LIMIT (st.historyPast ++ [snapshotState st]),
        historyFuture := [],
        nodes := addNodeToTree st.nodes containerId node,
        selectedNodeId := some node.id } = _
    rw [addNodeToTree_of_not_contains node habs]
  · intro st sourceId targetId hpend habs
    show { pushSnapshot st with
        nodes := moveNodeInTree (pushSnapshot st).nodes none sourceId targetId } = _
    rw [pushSnapshot_of_pending_none hpend]
    show { st with
        historyPast := sliceLast HISTORY_LIMIT (st.historyPast ++ [snapshotState st]),
        historyFuture := [],
        nodes := moveNodeInTree st.nodes none sourceId targetId } = _
    show { st with
        historyPast := sliceLast HISTORY_LIMIT (st.historyPast ++ [snapshotState st]),
        historyFuture := [],
        nodes := reorderNodes st.nodes sourceId targetId } = _
    rw [reorderNodes_noop (by tauto)]
  · intro st pid sourceId targetId hpid hpend habs
    show { pushSnapshot st with
        nodes := moveNodeInTree (pushSnapshot st).nodes (some pid) sourceId targetId } = _
    rw [pushSnapshot_of_pending_none hpend]
    show { st with
        historyPast := sliceLast HISTORY_LIMIT (st.historyPast ++ [snapshotState st]),
        historyFuture := [],
        nodes := moveNodeInTree st.nodes (some pid) sourceId targetId } = _
    rw [moveNodeInTree_of_noOp hpid habs]

/-- C1 counterexample: calling updateNodeProps on an id absent from the
tree is claimed to leave the past and future stacks exactly as they were,
but on the empty initial state it pushes a snapshot onto the past
stack while leaving the nodes unchanged. -/
theorem missing_subject_counterexample :
    (updateNodeProps initialEngineState "ghost" [] .immediate).historyPast ≠
      initialEngineState.historyPast ∧
    (updateNodeProps initialEngineState "ghost" [] .immediate).nodes =
      initialEngineState.nodes := by decide

/-- C1 witness. -/
theorem missing_subject_keeps_nodes_touches_history_witness :
    initialEngineState.pendingSnapshot = none ∧
    listContains "ghost" initialEngineState.nodes = false ∧
    updateNodeProps initialEngineState "ghost" [] .immediate =
      { initialEngineState with
          historyPast := sliceLast HISTORY_LIMIT
            (initialEngineState.historyPast ++ [snapshotState initialEngineState]),
          historyFuture := [] } :=
  ⟨rfl, rfl,
    missing_subject_keeps_nodes_touches_history.1 initialEngineState "ghost" [] rfl rfl⟩

/-! Concrete sibling nodes for the reorder example. -/

def nodeA : Node := .mk "a" "text" "A" none none

def nodeB : Node := .mk "b" "text" "B" none none

def nodeC : Node := .mk "c" "text" "C" none none

def nodeD : Node := .mk "d" "text" "D" none none

def containerP : Node := .mk "p" "container" "P" none (some [nodeA, nodeB, nodeC, nodeD])

/-- C2: moveNodeWithinParent reorders only within the child list of one
parent, the root list when the parent id is null. It locates the indices
of source and target in that list; when either is missing or they
coincide the list is returned unchanged; otherwise the source element is
removed and reinserted immediately before the post-removal index of the
target (the second conjunct of the characterization states that the
insertion index used by the source is exactly the index of the target
after the removal). On children A, B, C, D, moving source C with target A
yields C, A, B, D, both at the root and under a named parent. -/
theorem move_within_parent_spec :
    (∀ (ns : List Node) (s t : String),
      moveNodeInTree ns none s t = reorderNodes ns s t) ∧
    (∀ (ns : List Node) (s t : String),
      (findIndex (fun n => n.id = s) ns = none ∨
        findIndex (fun n => n.id = t) ns = none ∨
        findIndex (fun n => n.id = s) ns = findIndex (fun n => n.id = t) ns) →
      reorderNodes ns s t = ns) ∧
    (∀ (ns : List Node) (s t : String) (si ti : Nat) (moved : Node),
      findIndex (fun n => n.id = s) ns = some si →
      findIndex (fun n => n.id = t) ns = some ti →
      si ≠ ti →
      ns.get? si = some moved →
      reorderNodes ns s t =
        insertAt (if si < ti then ti - 1 else ti) moved (ns.eraseIdx si) ∧
      findIndex (fun n => n.id = t) (ns.eraseIdx si) =
        some (if si < ti then ti - 1 else ti)) ∧
    moveNodeInTree [nodeA, nodeB, nodeC, nodeD] none "c" "a" =
      [nodeC, nodeA, nodeB, nodeD] ∧
    moveNodeInTree [containerP] (some "p") "c" "a" =
      [Node.mk "p" "container" "P" none (some [nodeC, nodeA, nodeB, nodeD])] := by
  refine ⟨fun ns s t => rfl, fun ns s t h => reorderNodes_noop h, ?_, by decide, by decide⟩
  intro ns s t si ti moved hs ht hne hget
  constructor
  · unfold reorderNodes
    rw [hs, ht]
    simp only [if_neg hne, hget]
  · exact findIndex_eraseIdx _ ns si ti ht hne

/-- C2 witness. -/
theorem move_within_parent_spec_witness :
    reorderNodes [nodeA, nodeB, nodeC, nodeD] "c" "a" =
      insertAt 0 nodeC ([nodeA, nodeB, nodeC, nodeD].eraseIdx 2) ∧
    findIndex (fun n => n.id = "a") ([nodeA, nodeB, nodeC, nodeD].eraseIdx 2) = some 0 := by
  have h := move_within_parent_spec.2.2.1 [nodeA, nodeB, nodeC, nodeD] "c" "a" 2 0 nodeC
    (by decide) (by decide) (by decide) (by decide)
  simpa using h

/-- C3: the history stacks stay bounded after any sequence of engine
events: past and future each hold at most 50 snapshots, a push onto a
full past stack evicts the oldest snapshot, and in the concrete scenario
of 60 immediate mutations followed by 60 undos the engine recovers
exactly the state left by the 10th mutation, with an empty past stack
(so the oldest 10 mutations are unrecoverable and a further undo is a
no-op) and a future stack at the 50-snapshot bound. -/
theorem history_bounded_spec :
    (∀ ops : List Op, (run ops).historyPast.length ≤ HISTORY_LIMIT ∧
      (run ops).historyFuture.length ≤ HISTORY_LIMIT) ∧
    (∀ st : EngineState, st.pendingSnapshot = none →
      st.historyPast.length = HISTORY_LIMIT →
      (pushSnapshot st).historyPast = st.historyPast.tail ++ [snapshotState st]) ∧
    (scenarioRun.nodes = [Node.mk "a" "text" "A" (some [("step", "9")]) none] ∧
      scenarioRun.historyPast = [] ∧
      scenarioRun.historyFuture.length = HISTORY_LIMIT ∧
      undo scenarioRun = scenarioRun) := by
  refine ⟨?_, ?_, ?_⟩
  · intro ops
    obtain ⟨h1, h2, _⟩ := historyInv_run ops
    exact ⟨h1, by omega⟩
  · intro st h1 h2
    exact pushSnapshot_evicts h1 h2
  · set_option maxRecDepth 10000 in decide

def fullState : EngineState :=
  { initialEngineState with
      historyPast := List.replicate HISTORY_LIMIT (snapshotState initialEngineState) }

/-- C3 witness. -/
theorem history_bounded_spec_witness :
    (run [Op.opUndo]).historyPast.length ≤ HISTORY_LIMIT ∧
    fullState.pendingSnapshot = none ∧
    fullState.historyPast.length = HISTORY_LIMIT ∧
    (pushSnapshot fullState).historyPast =
      fullState.historyPast.tail ++ [snapshotState fullState] :=
  ⟨(history_bounded_spec.1 [Op.opUndo]).1, rfl, by decide,
    history_bounded_spec.2.1 fullState rfl (by decide)⟩

/-- C4: undo first commits any pending debounced snapshot; then, when the
(post-commit) past stack is non-empty, it pops its top, pushes the
current document state onto the future stack and restores the popped
snapshot; redo is the mirror operation on the future stack; and with no
pending snapshot both are identities when their source stack is empty. -/
theorem undo_redo_spec :
    (∀ (st : EngineState) (ps : List EditorSnapshot) (p : EditorSnapshot),
      (commitPendingSnapshot st).historyPast = ps ++ [p] →
      undo st =
        { nodes := p.nodes,
          selectedNodeId := p.selectedNodeId,
          currentPageId := p.currentPageId,
          historyPast := ps,
          historyFuture := snapshotState st :: (commitPendingSnapshot st).historyFuture,
          pendingSnapshot := none }) ∧
    (∀ st : EngineState, st.pendingSnapshot = none → st.historyPast = [] →
      undo st = st) ∧
    (∀ (st : EngineState) (next : EditorSnapshot) (fs : List EditorSnapshot),
      (commitPendingSnapshot st).historyFuture = next :: fs →
      redo st =
        { nodes := next.nodes,
          selectedNodeId := next.selectedNodeId,
          currentPageId := next.currentPageId,
          historyPast := sliceLast HISTORY_LIMIT
            ((commitPendingSnapshot st).historyPast ++ [snapshotState st]),
          historyFuture := fs,
          pendingSnapshot := none }) ∧
    (∀ st : EngineState, st.pendingSnapshot = none → st.historyFuture = [] →
      redo st = st) := by
  refine ⟨?_, ?_, ?_, ?_⟩
  · intro st ps p h
    unfold undo undoCore
    rw [h, List.getLast?_concat, List.dropLast_concat, snapshotState_commit]
  · intro st hpend hpast
    unfold undo undoCore
    rw [commit_of_pending_none hpend, hpast]
    rfl
  · intro st next fs h
    unfold redo redoCore
    rw [h, snapshotState_commit]
  · intro st hpend hfut
    unfold redo redoCore
    rw [commit_of_pending_none hpend, hfut]

/-! ## Allocation-tagged model of updateNodeTree

Object identity made explicit: every node object and every children
array carries a numeric identity `rid`; a copy or a fresh array draws an
unused identity from a counter. JavaScript reference equality on arrays
is equality of `rid`s. Because `Array.prototype.map` always returns a
fresh array, the recursive result of `updateNodeTree` never carries the
identity of `node.children`, which is what makes the identity guard in
the source dead code. The updater is the one passed by `updateNodeProps`:
a fresh node object with the patch spread over its props. -/

mutual

inductive RNode where
  | mk (rid : Nat) (id : String) (ntype : String) (name : String)
      (props : Option (List (String × String)))
      (children : Option RArr) : RNode

inductive RArr where
  | mk (rid : Nat) (items : List RNode) : RArr

end

def RNode.rid : RNode → Nat
  | .mk r _ _ _ _ _ => r

def RArr.rid : RArr → Nat
  | .mk r _ => r

def RArr.items : RArr → List RNode
  | .mk _ l => l

mutual

def rupdateNodeOne (nodeId : String) (updates : List (String × String)) :
    RNode → Nat → RNode × Nat
  | .mk r i t nm p c, ctr =>
    if i = nodeId then
      (.mk ctr i t nm (some (mergeProps (p.getD []) updates)) c, ctr + 1)
    else
      match c with
      | none => (.mk r i t nm p none, ctr)
      | some ch =>
        let res := rupdateArr nodeId updates ch ctr
        if (res.1).rid = ch.rid then (.mk r i t nm p (some ch), res.2)
        else (.mk res.2 i t nm p (some res.1), res.2 + 1)

def rupdateArr (nodeId : String) (updates : List (String × String)) :
    RArr → Nat → RArr × Nat
  | .mk _ items, ctr =>
    let res := rupdateItems nodeId updates items ctr
    (.mk res.2 res.1, res.2 + 1)

def rupdateItems (nodeId : String) (updates : List (String × String)) :
    List RNode → Nat → List RNode × Nat
  | [], ctr => ([], ctr)
  | n :: rest, ctr =>
    let rn := rupdateNodeOne nodeId updates n ctr
    let rr := rupdateItems nodeId updates rest rn.2
    (rn.1 :: rr.1, rr.2)

end

/-! Forgetting the identities recovers the plain value model. -/

mutual

def stripNode : RNode → Node
  | .mk _ i t nm p c =>
    .mk i t nm p
      (match c with
       | none => none
       | some a => some (stripArr a))

def stripArr : RArr → List Node
  | .mk _ items => stripItems items

def stripItems : List RNode → List Node
  | [] => []
  | n :: rest => stripNode n :: stripItems rest

end

/-! Concrete trees for the identity claims. -/

def leafA : RNode := .mk 1 "a" "text" "A" (some []) none

def containerB : RNode := .mk 2 "b" "container" "B" none (some (.mk 3 []))

def demoArr : RArr := .mk 0 [leafA, containerB]

def arrSolo : RArr := .mk 4 [.mk 5 "x" "text" "X" (some []) none]

/-- The identity of the item at an index. -/
def ridOfItem (a : RArr) (i : Nat) : Option Nat := (a.items.get? i).map RNode.rid

/-! ## Empty-patch safety: the value-level no-op condition for an empty
props patch. A matched node must already carry a props record, because
the updater always rebuilds props (a matched node without one would gain
an empty record). -/

mutual

def emptyPatchSafe (nodeId : String) : Node → Bool
  | .mk i _ _ p c =>
    if i = nodeId then p.isSome
    else
      match c with
      | none => true
      | some ch => emptyPatchSafeList nodeId ch

def emptyPatchSafeList (nodeId : String) : List Node → Bool
  | [] => true
  | n :: rest => emptyPatchSafe nodeId n && emptyPatchSafeList nodeId rest

end

mutual

theorem updateNodeOne_empty_patch (nodeId : String) :
    ∀ n : Node, emptyPatchSafe nodeId n = true →
      updateNodeOne nodeId (updatePropsFn []) n = n
  | .mk i t nm p c, h => by
    unfold emptyPatchSafe at h
    unfold updateNodeOne
    by_cases hi : i = nodeId
    · rw [if_pos hi] at h ⊢
      match p, h with
      | some pr, _ => rfl
    · rw [if_neg hi] at h ⊢
      match c with
      | none => rfl
      | some ch =>
        have hch := updateNodeTree_empty_patch nodeId ch h
        simp only [hch, if_pos]

theorem updateNodeTree_empty_patch (nodeId : String) :
    ∀ ns : List Node, emptyPatchSafeList nodeId ns = true →
      updateNodeTree nodeId (updatePropsFn []) ns = ns
  | [], _ => rfl
  | n :: rest, h => by
    unfold emptyPatchSafeList at h
    simp only [Bool.and_eq_true] at h
    unfold updateNodeTree
    rw [updateNodeOne_empty_patch nodeId n h.1,
      updateNodeTree_empty_patch nodeId rest h.2]

end

theorem pushSnapshot_nodes (st : EngineState) : (pushSnapshot st).nodes = st.nodes := by
  unfold pushSnapshot commitPendingSnapshot
  cases st.pendingSnapshot <;> rfl

theorem queueSnapshot_nodes (st : EngineState) : (queueSnapshot st).nodes = st.nodes := by
  unfold queueSnapshot
  cases st.pendingSnapshot <;> rfl

/-- C6: evaluation at the failing input of the structural-sharing
contract. In the tree with sibling nodes A (a leaf) and B (a container
with a children array), updating the props of A does not leave the
subtree rooted at B reference-identical: B is rebuilt as a fresh object
(identity 12, against its original identity 2) holding a fresh children
array, because the map in updateNodeTree always produces a fresh array
and the identity guard against the previous children can never fire. A
leaf sibling, by contrast, does keep its identity, and the rebuilt tree
is value-equal to what the plain model computes. -/
theorem structural_sharing_violation :
    ridOfItem (rupdateArr "a" [("background", "red")] demoArr 10).1 1 = some 12 ∧
    containerB.rid = 2 ∧
    ridOfItem (rupdateArr "b" [("background", "red")] demoArr 10).1 0 = some 1 ∧
    leafA.rid = 1 ∧
    stripArr (rupdateArr "a" [("background", "red")] demoArr 10).1 =
      updateNodeTree "a" (updatePropsFn [("background", "red")]) (stripArr demoArr) := by
  decide

/-- C7 counterexample: updating a present node with an empty patch is
claimed to return a tree reference-identical to the input, but the root
array of the result is a fresh allocation (its identity differs from the
input identity), even though the value is unchanged. -/
theorem empty_patch_not_reference_identical :
    (rupdateArr "x" [] arrSolo 10).1.rid ≠ arrSolo.rid ∧
    stripArr (rupdateArr "x" [] arrSolo 10).1 = stripArr arrSolo := by
  decide

/-- C7 amended: updateNodeProps with an empty patch is a no-op at the
value level whenever every node carrying the target id already has a
props record: the resulting nodes tree is equal, as a value, to the
input tree (in every history mode). It is not reference-identical: the
arrays along the way are fresh allocations, as the counterexample
records. -/
theorem empty_patch_value_identity :
    ∀ (st : EngineState) (nodeId : String) (mode : HistoryMode),
      emptyPatchSafeList nodeId st.nodes = true →
      (updateNodeProps st nodeId [] mode).nodes = st.nodes := by
  intro st nodeId mode h
  cases mode with
  | immediate =>
    show updateNodeTree nodeId (updatePropsFn []) (pushSnapshot st).nodes = _
    rw [pushSnapshot_nodes, updateNodeTree_empty_patch nodeId st.nodes h]
  | debounced =>
    show updateNodeTree nodeId (updatePropsFn []) (queueSnapshot st).nodes = st.nodes
    rw [queueSnapshot_nodes, updateNodeTree_empty_patch nodeId st.nodes h]
  | noRecord =>
    show updateNodeTree nodeId (updatePropsFn []) st.nodes = _
    rw [updateNodeTree_empty_patch nodeId st.nodes h]

/-- C7 witness. -/
theorem empty_patch_value_identity_witness :
    emptyPatchSafeList "a" { initialEngineState with nodes := [scenarioNode] }.nodes = true ∧
    (updateNodeProps { initialEngineState with nodes := [scenarioNode] } "a" []
        .immediate).nodes =
      { initialEngineState with nodes := [scenarioNode] }.nodes :=
  ⟨by decide,
    empty_patch_value_identity { initialEngineState with nodes := [scenarioNode] } "a"
      .immediate (by decide)⟩

/-! ## Timed model of the debounce

The single debounce timer of the store is made explicit as an optional
deadline: `setTimeout` at time t arms the deadline t plus the window and
`clearTimeout` before it rearms means an armed deadline is always
superseded, never stacked. An event arriving at time t first lets an
expired deadline fire its commit callback. -/

structure TimedState where
  engine : EngineState
  deadline : Option Nat

/-- Run the timer callback when the armed deadline has been reached at
time t. -/
def fireIfDue (t : Nat) (ts : TimedState) : TimedState :=
  match ts.deadline with
  | some d => if d ≤ t then { engine := timerFire ts.engine, deadline := none } else ts
  | none => ts

/-- A debounced updateNodeProps call arriving at time t: an expired
timer fires first, then the call captures the pending snapshot when none
is pending, clears the future stack, applies the mutation and restarts
the single timer for a full window. -/
def timedDebouncedUpdate (t : Nat) (nodeId : String) (updates : List (String × String))
    (ts : TimedState) : TimedState :=
  let ts1 := fireIfDue t ts
  { engine := updateNodeProps ts1.engine nodeId updates .debounced,
    deadline := some (t + HISTORY_DEBOUNCE_MS) }

theorem queueSnapshot_pending_some {e : EngineState} {σ : EditorSnapshot}
    (h : e.pendingSnapshot = some σ) : queueSnapshot e = e := by
  unfold queueSnapshot
  rw [h]

theorem queueSnapshot_pending_none {e : EngineState} (h : e.pendingSnapshot = none) :
    queueSnapshot e = { e with pendingSnapshot := some (snapshotState e) } := by
  unfold queueSnapshot
  rw [h]

theorem snapshotState_timerFire (e : EngineState) :
    snapshotState (timerFire e) = snapshotState e := by
  unfold timerFire
  cases e.pendingSnapshot <;> rfl

theorem timerFire_of_pending_some {e : EngineState} {σ : EditorSnapshot}
    (h : e.pendingSnapshot = some σ) :
    timerFire e =
      { e with
          pendingSnapshot := none,
          historyPast := sliceLast HISTORY_LIMIT (e.historyPast ++ [σ]) } := by
  unfold timerFire
  rw [h]

/-- Field effects of the first debounced call of a burst. -/
theorem burst_first {ts : TimedState} (t : Nat) (nid : String) (u : List (String × String))
    (hd : ts.deadline = none) (hp : ts.engine.pendingSnapshot = none) :
    (timedDebouncedUpdate t nid u ts).deadline = some (t + HISTORY_DEBOUNCE_MS) ∧
    (timedDebouncedUpdate t nid u ts).engine.pendingSnapshot =
      some (snapshotState ts.engine) ∧
    (timedDebouncedUpdate t nid u ts).engine.historyPast = ts.engine.historyPast := by
  have hf : fireIfDue t ts = ts := by
    unfold fireIfDue
    rw [hd]
  unfold timedDebouncedUpdate
  rw [hf]
  refine ⟨rfl, ?_, ?_⟩
  · show (queueSnapshot ts.engine).pendingSnapshot = some (snapshotState ts.engine)
    rw [queueSnapshot_pending_none hp]
  · show (queueSnapshot ts.engine).historyPast = ts.engine.historyPast
    rw [queueSnapshot_pending_none hp]

/-- Field effects of a further debounced call arriving inside the
window: the pending snapshot is kept, nothing is committed, and the
timer is superseded. -/
theorem burst_step {ts : TimedState} {σ : EditorSnapshot} {d : Nat} (t : Nat) (nid : String)
    (u : List (String × String))
    (hd : ts.deadline = some d) (ht : t < d) (hp : ts.engine.pendingSnapshot = some σ) :
    (timedDebouncedUpdate t nid u ts).deadline = some (t + HISTORY_DEBOUNCE_MS) ∧
    (timedDebouncedUpdate t nid u ts).engine.pendingSnapshot = some σ ∧
    (timedDebouncedUpdate t nid u ts).engine.historyPast = ts.engine.historyPast := by
  have hf : fireIfDue t ts = ts := by
    unfold fireIfDue
    rw [hd]
    show (if d ≤ t then ({ engine := timerFire ts.engine, deadline := none } : TimedState)
      else ts) = ts
    rw [if_neg (by omega : ¬ d ≤ t)]
  unfold timedDebouncedUpdate
  rw [hf]
  refine ⟨rfl, ?_, ?_⟩
  · show (queueSnapshot ts.engine).pendingSnapshot = some σ
    rw [queueSnapshot_pending_some hp]
    exact hp
  · show (queueSnapshot ts.engine).historyPast = ts.engine.historyPast
    rw [queueSnapshot_pending_some hp]

/-- Field effects of a debounced call arriving after the window: the
expired timer first commits the pending snapshot, then a new burst
starts. -/
theorem burst_expired {ts : TimedState} {σ : EditorSnapshot} {d : Nat} (t : Nat)
    (nid : String) (u : List (String × String))
    (hd : ts.deadline = some d) (ht : d ≤ t) (hp : ts.engine.pendingSnapshot = some σ) :
    (timedDebouncedUpdate t nid u ts).deadline = some (t + HISTORY_DEBOUNCE_MS) ∧
    (timedDebouncedUpdate t nid u ts).engine.pendingSnapshot =
      some (snapshotState ts.engine) ∧
    (timedDebouncedUpdate t nid u ts).engine.historyPast =
      sliceLast HISTORY_LIMIT (ts.engine.historyPast ++ [σ]) := by
  have hf : fireIfDue t ts = { engine := timerFire ts.engine, deadline := none } := by
    unfold fireIfDue
    rw [hd]
    show (if d ≤ t then ({ engine := timerFire ts.engine, deadline := none } : TimedState)
      else ts) = _
    rw [if_pos ht]
  have hpf : (timerFire ts.engine).pendingSnapshot = none := by
    rw [timerFire_of_pending_some hp]
  unfold timedDebouncedUpdate
  rw [hf]
  refine ⟨rfl, ?_, ?_⟩
  · show (queueSnapshot (timerFire ts.engine)).pendingSnapshot =
      some (snapshotState ts.engine)
    rw [queueSnapshot_pending_none hpf, snapshotState_timerFire]
  · show (queueSnapshot (timerFire ts.engine)).historyPast =
      sliceLast HISTORY_LIMIT (ts.engine.historyPast ++ [σ])
    rw [queueSnapshot_pending_none hpf, timerFire_of_pending_some hp]

/-- Field effect of letting the armed timer expire with no further
call. -/
theorem final_fire {ts : TimedState} {σ : EditorSnapshot} {d : Nat} (T : Nat)
    (hd : ts.deadline = some d) (hT : d ≤ T) (hp : ts.engine.pendingSnapshot = some σ) :
    (fireIfDue T ts).engine.historyPast =
      sliceLast HISTORY_LIMIT (ts.engine.historyPast ++ [σ]) := by
  unfold fireIfDue
  rw [hd]
  show (if d ≤ T then ({ engine := timerFire ts.engine, deadline := none } : TimedState)
      else ts).engine.historyPast = _
  rw [if_pos hT]
  show (timerFire ts.engine).historyPast = _
  rw [timerFire_of_pending_some hp]

/-- C5: in debounced history mode the pre-mutation snapshot is captured
once, on the first call of a burst, and each further debounced call
inside the 200ms window supersedes the single pending-commit timer
instead of stacking timers; after a quiet period exactly one entry is
committed onto the past stack. Five debounced updateNodeProps calls,
each less than 200ms after the previous, leave exactly one pending
snapshot (the pre-burst state) and commit exactly one entry, and a sixth
call arriving 250ms after the fifth commits that entry and then produces
a second, separate entry holding the state the fifth call left behind. -/
theorem debounce_coalescing_spec (ts0 : TimedState) (nid : String)
    (u1 u2 u3 u4 u5 u6 : List (String × String)) (t1 t2 t3 t4 t5 t6 T : Nat)
    (h0d : ts0.deadline = none) (h0p : ts0.engine.pendingSnapshot = none)
    (h0len : ts0.engine.historyPast.length + 2 ≤ HISTORY_LIMIT)
    (g2 : t2 < t1 + HISTORY_DEBOUNCE_MS) (g3 : t3 < t2 + HISTORY_DEBOUNCE_MS)
    (g4 : t4 < t3 + HISTORY_DEBOUNCE_MS) (g5 : t5 < t4 + HISTORY_DEBOUNCE_MS)
    (g6 : t6 = t5 + 250) (gT : t6 + HISTORY_DEBOUNCE_MS ≤ T) :
    (let s1 := timedDebouncedUpdate t1 nid u1 ts0
     let s2 := timedDebouncedUpdate t2 nid u2 s1
     let s3 := timedDebouncedUpdate t3 nid u3 s2
     let s4 := timedDebouncedUpdate t4 nid u4 s3
     let s5 := timedDebouncedUpdate t5 nid u5 s4
     let s6 := timedDebouncedUpdate t6 nid u6 s5
     let lastState := fireIfDue T s6
     s5.engine.pendingSnapshot = some (snapshotState ts0.engine) ∧
     s5.engine.historyPast = ts0.engine.historyPast ∧
     s6.engine.historyPast = ts0.engine.historyPast ++ [snapshotState ts0.engine] ∧
     lastState.engine.historyPast =
       ts0.engine.historyPast ++
         [snapshotState ts0.engine, snapshotState s5.engine]) := by
  have hlim : HISTORY_LIMIT = 50 := rfl
  obtain ⟨h1d, h1p, h1past⟩ := burst_first t1 nid u1 h0d h0p
  obtain ⟨h2d, h2p, h2past⟩ := burst_step t2 nid u2 h1d g2 h1p
  obtain ⟨h3d, h3p, h3past⟩ := burst_step t3 nid u3 h2d g3 h2p
  obtain ⟨h4d, h4p, h4past⟩ := burst_step t4 nid u4 h3d g4 h3p
  obtain ⟨h5d, h5p, h5past⟩ := burst_step t5 nid u5 h4d g5 h4p
  obtain ⟨h6d, h6p, h6past⟩ := burst_expired t6 nid u6 h5d
    (by
      have h200 : HISTORY_DEBOUNCE_MS = 200 := rfl
      rw [h200]
      omega) h5p
  have hfin := final_fire T h6d gT h6p
  have hpast5 : (timedDebouncedUpdate t5 nid u5 (timedDebouncedUpdate t4 nid u4
      (timedDebouncedUpdate t3 nid u3 (timedDebouncedUpdate t2 nid u2
        (timedDebouncedUpdate t1 nid u1 ts0))))).engine.historyPast =
      ts0.engine.historyPast := by
    rw [h5past, h4past, h3past, h2past, h1past]
  rw [hlim] at h0len
  have hs1 : sliceLast HISTORY_LIMIT (ts0.engine.historyPast ++ [snapshotState ts0.engine]) =
      ts0.engine.historyPast ++ [snapshotState ts0.engine] := by
    apply sliceLast_of_length_le
    rw [List.length_append, List.length_singleton, hlim]
    omega
  have hs2 : ∀ x : EditorSnapshot,
      sliceLast HISTORY_LIMIT
          ((ts0.engine.historyPast ++ [snapshotState ts0.engine]) ++ [x]) =
        ts0.engine.historyPast ++ [snapshotState ts0.engine, x] := by
    intro x
    rw [sliceLast_of_length_le _ _ (by
      rw [List.length_append, List.length_append, List.length_singleton,
        List.length_singleton, hlim]
      omega)]
    rw [List.append_assoc]
    rfl
  refine ⟨h5p, hpast5, ?_, ?_⟩
  · rw [h6past, hpast5, hs1]
  · rw [hfin, h6past, hpast5, hs1, hs2]

def c5Start : TimedState :=
  { engine := { initialEngineState with nodes := [scenarioNode] }, deadline := none }

/-- C5 witness. -/
theorem debounce_coalescing_spec_witness :
    (let s1 := timedDebouncedUpdate 0 "a" [("x", "1")] c5Start
     let s2 := timedDebouncedUpdate 100 "a" [("x", "2")] s1
     let s3 := timedDebouncedUpdate 200 "a" [("x", "3")] s2
     let s4 := timedDebouncedUpdate 300 "a" [("x", "4")] s3
     let s5 := timedDebouncedUpdate 400 "a" [("x", "5")] s4
     let s6 := timedDebouncedUpdate 650 "a" [("x", "6")] s5
     let lastState := fireIfDue 900 s6
     s5.engine.pendingSnapshot = some (snapshotState c5Start.engine) ∧
     s5.engine.historyPast = c5Start.engine.historyPast ∧
     s6.engine.historyPast = c5Start.engine.historyPast ++ [snapshotState c5Start.engine] ∧
     lastState.engine.historyPast =
       c5Start.engine.historyPast ++
         [snapshotState c5Start.engine, snapshotState s5.engine]) :=
  debounce_coalescing_spec c5Start "a" [("x", "1")] [("x", "2")] [("x", "3")] [("x", "4")]
    [("x", "5")] [("x", "6")] 0 100 200 300 400 650 900 rfl rfl (by decide) (by decide)
    (by decide) (by decide) (by decide) (by decide) (by decide)

/-! ## Color and gradient codec (components/editor/ColorControl.tsx)

Strings are lists of characters; numbers flowing out of parseInt and
parseFloat are rationals, with the JavaScript NaN represented as `none`.
Character classes use ASCII codes (48 to 57 are the digits, 97 to 102
and 65 to 70 the hex letters). -/

def isJsWhitespace (c : Char) : Bool := c = ' ' || c = '\t' || c = '\n' || c = '\r'

/-- JavaScript String.prototype.trim restricted to the ASCII whitespace
that can occur in the values at hand. -/
def jsTrim (s : List Char) : List Char :=
  ((s.dropWhile isJsWhitespace).reverse.dropWhile isJsWhitespace).reverse

/-- JavaScript value.replace applied to the one-character pattern hash:
only the first occurrence is removed. -/
def removeFirstHash : List Char → List Char
  | [] => []
  | c :: rest => if c = '#' then rest else c :: removeFirstHash rest

def isDigitChar (c : Char) : Bool := 48 ≤ c.toNat && c.toNat ≤ 57

def digitVal (c : Char) : Nat := c.toNat - 48

def isHexDigit (c : Char) : Bool :=
  (48 ≤ c.toNat && c.toNat ≤ 57) || (97 ≤ c.toNat && c.toNat ≤ 102) ||
    (65 ≤ c.toNat && c.toNat ≤ 70)

def hexDigitVal (c : Char) : Nat :=
  if 48 ≤ c.toNat ∧ c.toNat ≤ 57 then c.toNat - 48
  else if 97 ≤ c.toNat then c.toNat - 87
  else c.toNat - 55

/-- The hex digits of a string prefix, most significant first. -/
def parseHexPrefixAux : List Char → Nat → Nat
  | [], acc => acc
  | c :: rest, acc =>
    if isHexDigit c then parseHexPrefixAux rest (acc * 16 + hexDigitVal c) else acc

def parseHexPrefix : List Char → Option Nat
  | [] => none
  | c :: rest =>
    if isHexDigit c then some (parseHexPrefixAux rest (hexDigitVal c)) else none

/-- The optional leading sign of Number.parseInt and of the exponent of
Number.parseFloat: the sign factor and the rest of the string. -/
def intSign (s : List Char) : Int × List Char :=
  match s with
  | c :: rest =>
    if c = '-' then (-1, rest) else if c = '+' then (1, rest) else (1, c :: rest)
  | [] => (1, [])

/-- Number.parseInt with base 16 strips one leading 0x or 0X. -/
def stripHexPrefix (s : List Char) : List Char :=
  match s with
  | c0 :: cx :: rest =>
    if c0 = '0' ∧ (cx = 'x' ∨ cx = 'X') then rest else c0 :: cx :: rest
  | other => other

/-- Number.parseInt with base 16 on the two-character alpha slices at
hand: skip leading whitespace, take an optional sign, strip an optional
0x or 0X prefix, then read a hex-digit prefix; no digit at all is
NaN. -/
def jsParseIntHex (s : List Char) : Option Int :=
  (parseHexPrefix (stripHexPrefix (intSign (s.dropWhile isJsWhitespace)).2)).map
    (fun n : Nat => (intSign (s.dropWhile isJsWhitespace)).1 * (n : Int))

/-- Math.round for the non-negative rationals produced here: round half
up. -/
def jsRound (q : ℚ) : Int := ⌊q + 1 / 2⌋

/-- The clamp helper of ColorControl.tsx (Math.min of Math.max). -/
def clampQ (v lo hi : ℚ) : ℚ := min (max v lo) hi

/-- Number.parseFloat on the forms that occur in color values: leading
whitespace, an optional sign, integer digits, an optional fraction and
an optional e or E exponent with its own optional sign (a malformed
exponent with no digits is ignored, as parseFloat does); no mantissa
digits at all is NaN. -/
def natOfDigits (ds : List Char) : Nat := ds.foldl (fun acc c => acc * 10 + digitVal c) 0

def jsParseFloat (s : List Char) : Option ℚ :=
  let s1 := s.dropWhile isJsWhitespace
  let signAndRest : ℚ × List Char :=
    match s1 with
    | c :: rest => if c = '-' then (-1, rest) else if c = '+' then (1, rest) else (1, c :: rest)
    | [] => (1, [])
  let intDigits := signAndRest.2.takeWhile isDigitChar
  let afterInt := signAndRest.2.drop intDigits.length
  let fracDigits : List Char :=
    match afterInt with
    | c :: rest => if c = '.' then rest.takeWhile isDigitChar else []
    | [] => []
  let afterFrac : List Char :=
    match afterInt with
    | c :: rest => if c = '.' then rest.drop (rest.takeWhile isDigitChar).length else c :: rest
    | [] => []
  let expVal : Int :=
    match afterFrac with
    | e :: rest =>
      if e = 'e' ∨ e = 'E' then
        if ((intSign rest).2.takeWhile isDigitChar).length = 0 then 0
        else (intSign rest).1 * (natOfDigits ((intSign rest).2.takeWhile isDigitChar) : Int)
      else 0
    | [] => 0
  if intDigits.length = 0 ∧ fracDigits.length = 0 then none
  else
    some (signAndRest.1 *
      ((natOfDigits intDigits : ℚ) + (natOfDigits fracDigits : ℚ) / 10 ^ fracDigits.length) *
      (10 : ℚ) ^ expVal)

/-- value.toString(16) for the byte values at hand (lowercase), as used
by toHex. -/
def natToHexChars (n : Nat) : List Char := Nat.toDigits 16 n

/-- padStart(2, zero). -/
def padStart2 (s : List Char) : List Char :=
  if s.length < 2 then List.replicate (2 - s.length) '0' ++ s else s

/-- toHex of ColorControl.tsx applied to Math.round of a clamped
channel; a NaN channel prints as the literal NaN, which padStart leaves
alone. -/
def toHexByte (v : Option ℚ) : List Char :=
  match v with
  | none => ['N', 'a', 'N']
  | some q => padStart2 (natToHexChars (jsRound q).toNat)

/-- The structured solid color: hex string plus the separately tracked
alpha percentage (`none` for a NaN alpha). -/
structure SolidColor where
  hex : List Char
  alpha : Option Int
deriving DecidableEq

/-- parseHexColor (ColorControl.tsx lines 42 to 55); the normalized
string of the source (first hash removed, then trimmed) is written out
at each use. -/
def parseHexColor (value : List Char) : Option SolidColor :=
  if (jsTrim (removeFirstHash value)).length = 6 then
    some { hex := '#' :: jsTrim (removeFirstHash value), alpha := some 100 }
  else if (jsTrim (removeFirstHash value)).length = 8 then
    some { hex := '#' :: (jsTrim (removeFirstHash value)).take 6,
           alpha := (jsParseIntHex (((jsTrim (removeFirstHash value)).drop 6).take 2)).map
             (fun a : Int => jsRound ((a : ℚ) / 255 * 100)) }
  else none

/-- One attempt of the regex rgba?-parenthesis-group-parenthesis at the
head of the string (case-insensitive); the group is the maximal nonempty
run of characters other than a closing parenthesis. The optional a is
consumed by skipOptA, and matchRgbTail matches the parenthesized group. -/
def skipOptA : List Char → List Char
  | a :: rest => if a.toLower = 'a' then rest else a :: rest
  | [] => []

def matchRgbTail : List Char → Option (List Char)
  | p :: inner =>
    if p = '(' then
      if (inner.takeWhile (fun c => c ≠ ')')).length ≠ 0 ∧
          (inner.drop (inner.takeWhile (fun c => c ≠ ')')).length).head? = some ')' then
        some (inner.takeWhile (fun c => c ≠ ')'))
      else none
    else none
  | [] => none

def matchRgbAt (s : List Char) : Option (List Char) :=
  match s with
  | r :: g :: b :: rest =>
    if r.toLower = 'r' ∧ g.toLower = 'g' ∧ b.toLower = 'b' then
      matchRgbTail (skipOptA rest)
    else none
  | _ => none

/-- The regex search: try every start position left to right. -/
def searchRgb : List Char → Option (List Char)
  | [] => none
  | c :: rest =>
    match matchRgbAt (c :: rest) with
    | some grp => some grp
    | none => searchRgb rest

/-- String.prototype.split on every comma. -/
def splitOnCommaAux : List Char → List Char → List (List Char)
  | [], buf => [buf.reverse]
  | c :: rest, buf =>
    if c = ',' then buf.reverse :: splitOnCommaAux rest []
    else splitOnCommaAux rest (c :: buf)

def splitOnComma (s : List Char) : List (List Char) := splitOnCommaAux s []

/-- parseRgbColor (ColorControl.tsx lines 57 to 77), split into the
alpha argument (parts beyond the third, defaulting to opaque) and the
body over the comma-split trimmed nonempty parts. -/
def rgbAlphaArg (parts : List (List Char)) : Option ℚ :=
  match parts.get? 3 with
  | some p => (jsParseFloat p).map (fun q => clampQ q 0 1)
  | none => some 1

def parseRgbParts (parts : List (List Char)) : Option SolidColor :=
  if parts.length < 3 then none
  else
    some { hex := '#' ::
             (toHexByte ((jsParseFloat (parts.getD 0 [])).map (fun q => clampQ q 0 255)) ++
              toHexByte ((jsParseFloat (parts.getD 1 [])).map (fun q => clampQ q 0 255)) ++
              toHexByte ((jsParseFloat (parts.getD 2 [])).map (fun q => clampQ q 0 255))),
           alpha := (rgbAlphaArg parts).map (fun q => jsRound (q * 100)) }

def parseRgbColor (value : List Char) : Option SolidColor :=
  match searchRgb value with
  | none => none
  | some inner =>
    parseRgbParts (((splitOnComma inner).map jsTrim).filter (fun p => p.length ≠ 0))

/-- parseCssColor (ColorControl.tsx lines 79 to 90). -/
def parseCssColor (value : List Char) : Option SolidColor :=
  if value.length = 0 then none
  else if value.head? = some '#' then parseHexColor value
  else if (value.take 3).map Char.toLower = toChars "rgb" then parseRgbColor value
  else none

/-! ### parseGradient (ColorControl.tsx lines 102 to 149) -/

structure Gradient where
  angle : ℚ
  startColor : List Char
  endColor : List Char
deriving DecidableEq

/-- The depth update of splitGradientArgs for one character: an opening
parenthesis increments, a closing one decrements clamped at zero (the
natural subtraction is the Math.max with zero), anything else leaves the
depth alone. -/
def stepDepth (ch : Char) (depth : Nat) : Nat :=
  if ch = '(' then depth + 1
  else if ch = ')' then depth - 1
  else depth

/-- splitGradientArgs: split on commas at parenthesis depth zero only,
trimming each argument; the trailing buffer is kept when nonempty. -/
def sgaGo : List Char → Nat → List Char → List (List Char) → List (List Char)
  | [], _, buffer, args => if jsTrim buffer = [] then args else args ++ [jsTrim buffer]
  | ch :: rest, depth, buffer, args =>
    if ch = ',' ∧ stepDepth ch depth = 0 then
      sgaGo rest (stepDepth ch depth) [] (args ++ [jsTrim buffer])
    else sgaGo rest (stepDepth ch depth) (buffer ++ [ch]) args

def splitGradientArgs (s : List Char) : List (List Char) := sgaGo s 0 [] []

/-- The parenthesis depth after scanning a chunk of characters. -/
def chunkDepth (d : Nat) : List Char → Nat
  | [] => d
  | ch :: rest => chunkDepth (stepDepth ch d) rest

/-- Does the chunk contain a comma at depth zero under the scan of
splitGradientArgs? -/
def hasTopComma (d : Nat) : List Char → Bool
  | [] => false
  | ch :: rest => (ch = ',' ∧ stepDepth ch d = 0) || hasTopComma (stepDepth ch d) rest

/-- One attempt of the angle regex (optional sign, digits, optional
fraction, then the letters d e g case-insensitively) at the head of the
string, returning the captured number text. The only backtracking the
regex can perform is dropping the optional fraction. -/
def matchAngleAt (s : List Char) : Option (List Char) :=
  let signAndRest : List Char × List Char :=
    match s with
    | c :: rest => if c = '-' then (['-'], rest) else ([], c :: rest)
    | [] => ([], [])
  let d := signAndRest.2.takeWhile isDigitChar
  if d.length = 0 then none
  else
    let s2 := signAndRest.2.drop d.length
    match s2 with
    | c2 :: s3 =>
      if c2 = '.' then
        let f := s3.takeWhile isDigitChar
        if f.length ≠ 0 ∧ ((s3.drop f.length).take 3).map Char.toLower = toChars "deg" then
          some (signAndRest.1 ++ d ++ '.' :: f)
        else if ((c2 :: s3).take 3).map Char.toLower = toChars "deg" then
          some (signAndRest.1 ++ d)
        else none
      else if ((c2 :: s3).take 3).map Char.toLower = toChars "deg" then
        some (signAndRest.1 ++ d)
      else none
    | [] =>
      if (([] : List Char).take 3).map Char.toLower = toChars "deg" then
        some (signAndRest.1 ++ d)
      else none

def searchAngle : List Char → Option (List Char)
  | [] => none
  | c :: rest =>
    match matchAngleAt (c :: rest) with
    | some grp => some grp
    | none => searchAngle rest

/-- The tail of parseGradient after the argument split: an angle match
on the first argument fixes the angle and shifts the color arguments by
one; absent angle text defaults the angle to 90; missing colors fall
back to white and black. -/
def parseGradientArgs (args : List (List Char)) : Option Gradient :=
  if args.length < 2 then none
  else
    match searchAngle (args.getD 0 []) with
    | some grp =>
      some { angle := (jsParseFloat grp).getD 0,
             startColor := args.getD 1 (toChars "#ffffff"),
             endColor := args.getD 2 (toChars "#000000") }
    | none =>
      some { angle := 90,
             startColor := args.getD 0 (toChars "#ffffff"),
             endColor := args.getD 1 (toChars "#000000") }

/-- parseGradient on the already-trimmed value: the lowercased prefix
must be the sixteen characters of linear-gradient and its opening
parenthesis, the last character must close it, and the inside (from
after the first opening parenthesis to before the final character) is
split on top-level commas. -/
def parseGradientCore (trimmed : List Char) : Option Gradient :=
  if ¬ ((trimmed.take 16).map Char.toLower = toChars "linear-gradient(") then none
  else if ¬ (trimmed.getLast? = some ')') then none
  else
    parseGradientArgs (splitGradientArgs
      ((trimmed.drop ((findIndex (fun c => c = '(') trimmed).getD trimmed.length + 1)).dropLast))

def parseGradient (value : List Char) : Option Gradient :=
  parseGradientCore (jsTrim value)

/-- The decimal digits of a natural number. -/
def digitChar (k : Nat) : Char := Char.ofNat (48 + k)

def natToCharsAux : Nat → Nat → List Char
  | 0, n => [digitChar n]
  | fuel + 1, n =>
    if n < 10 then [digitChar n]
    else natToCharsAux fuel (n / 10) ++ [digitChar (n % 10)]

def natToChars (n : Nat) : List Char := natToCharsAux n n

/-- The template literal of handleGradientChange (ColorControl.tsx line
221), for the integer angles the angle slider produces; the start and
end arguments are the serialized color strings. -/
def serializeGradient (angle : Nat) (startColor endColor : List Char) : List Char :=
  toChars "linear-gradient(" ++ natToChars angle ++ toChars "deg, " ++
    startColor ++ toChars ", " ++ endColor ++ [')']

/-- The textual rgb() functional notation with integer channels, the
input form fed to parseCssColor. -/
def rgbBody (r g b : Nat) : List Char :=
  natToChars r ++ ',' :: (natToChars g ++ ',' :: natToChars b)

def rgbSerial (r g b : Nat) : List Char :=
  'r' :: 'g' :: 'b' :: '(' :: (rgbBody r g b ++ [')'])

/-! ### Theme tokens and the style resolver

normalizeTokenName, buildTokenVarMap and resolveTokenValue are the
NodeRenderer helpers (part_006 lines 73 to 92); toCssVariableName is
the ThemeProvider helper (part_007 lines 24 to 27). The JavaScript
object used as the token map is modelled as an association list where
assignment overwrites in place (upsert) and lookup takes the stored
binding. -/

theorem ws_toNat {c : Char} (h : isJsWhitespace c = true) :
    c.toNat = 32 ∨ c.toNat = 9 ∨ c.toNat = 10 ∨ c.toNat = 13 := by
  unfold isJsWhitespace at h
  simp only [Bool.or_eq_true, decide_eq_true_eq] at h
  rcases h with ((rfl | rfl) | rfl) | rfl <;> decide

theorem isDigitChar_not_ws {c : Char} (h : isDigitChar c = true) :
    isJsWhitespace c = false := by
  unfold isDigitChar at h
  simp only [Bool.and_eq_true, decide_eq_true_eq] at h
  cases hw : isJsWhitespace c
  · rfl
  · rcases ws_toNat hw with h2 | h2 | h2 | h2 <;> omega

theorem isHexDigit_not_ws {c : Char} (h : isHexDigit c = true) :
    isJsWhitespace c = false := by
  unfold isHexDigit at h
  simp only [Bool.or_eq_true, Bool.and_eq_true, decide_eq_true_eq] at h
  cases hw : isJsWhitespace c
  · rfl
  · rcases ws_toNat hw with h2 | h2 | h2 | h2 <;> rcases h with (h | h) | h <;> omega

theorem isDigitChar_ne {c : Char} (h : isDigitChar c = true) :
    c ≠ ',' ∧ c ≠ '(' ∧ c ≠ ')' ∧ c ≠ '-' ∧ c ≠ '+' ∧ c ≠ '.' := by
  refine ⟨?_, ?_, ?_, ?_, ?_, ?_⟩ <;> (intro hc; subst hc; exact absurd h (by decide))

theorem dropWhile_eq_self_of_all (p : α → Bool) :
    ∀ l : List α, (∀ c ∈ l, p c = false) → l.dropWhile p = l
  | [], _ => rfl
  | c :: rest, h => by
    rw [List.dropWhile_cons, h c (by simp)]
    simp

theorem takeWhile_eq_self_of_all (p : α → Bool) :
    ∀ l : List α, (∀ c ∈ l, p c = true) → l.takeWhile p = l
  | [], _ => rfl
  | c :: rest, h => by
    rw [List.takeWhile_cons, h c (by simp)]
    simp only [if_true]
    rw [takeWhile_eq_self_of_all p rest (fun x hx => h x (by simp [hx]))]

theorem takeWhile_append_of_all (p : α → Bool) :
    ∀ (l r : List α), (∀ c ∈ l, p c = true) →
      (l ++ r).takeWhile p = l ++ r.takeWhile p
  | [], r, _ => rfl
  | c :: cs, r, h => by
    rw [List.cons_append, List.takeWhile_cons, h c (by simp)]
    simp only [if_true]
    rw [takeWhile_append_of_all p cs r (fun x hx => h x (by simp [hx]))]
    rfl

theorem jsTrim_eq_self_of_all {l : List Char} (h : ∀ c ∈ l, isJsWhitespace c = false) :
    jsTrim l = l := by
  unfold jsTrim
  rw [dropWhile_eq_self_of_all _ l h,
    dropWhile_eq_self_of_all _ l.reverse (fun c hc => h c (List.mem_reverse.mp hc)),
    List.reverse_reverse]

theorem jsTrim_cons_space (l : List Char) : jsTrim (' ' :: l) = jsTrim l := by
  unfold jsTrim
  rw [List.dropWhile_cons, if_pos (by decide)]

theorem jsTrim_of_ends {a b : Char} (s : List Char) (ha : isJsWhitespace a = false)
    (hb : isJsWhitespace b = false) : jsTrim (a :: (s ++ [b])) = a :: (s ++ [b]) := by
  unfold jsTrim
  have h1 : (a :: (s ++ [b])).dropWhile isJsWhitespace = a :: (s ++ [b]) := by
    rw [List.dropWhile_cons, ha]
    simp
  rw [h1]
  have h2 : (a :: (s ++ [b])).reverse = b :: (s.reverse ++ [a]) := by
    simp
  rw [h2, List.dropWhile_cons, hb]
  simp

/-! ### Splitting lemmas for splitGradientArgs -/

theorem stepDepth_plain {ch : Char} (h1 : ch ≠ '(') (h2 : ch ≠ ')') (d : Nat) :
    stepDepth ch d = d := by
  unfold stepDepth
  rw [if_neg h1, if_neg h2]

theorem chunkDepth_plain :
    ∀ (l : List Char) (d : Nat), (∀ c ∈ l, c ≠ '(' ∧ c ≠ ')') → chunkDepth d l = d
  | [], _, _ => rfl
  | ch :: rest, d, h => by
    unfold chunkDepth
    rw [stepDepth_plain (h ch (by simp)).1 (h ch (by simp)).2,
      chunkDepth_plain rest d (fun c hc => h c (by simp [hc]))]

theorem hasTopComma_plain :
    ∀ (l : List Char) (d : Nat), (∀ c ∈ l, c ≠ ',' ∧ c ≠ '(' ∧ c ≠ ')') →
      hasTopComma d l = false
  | [], _, _ => rfl
  | ch :: rest, d, h => by
    unfold hasTopComma
    rw [hasTopComma_plain rest _ (fun c hc => h c (by simp [hc]))]
    simp [(h ch (by simp)).1]

/-- Scanning a chunk with no top-level comma just accumulates it into
the buffer. -/
theorem sgaGo_chunk :
    ∀ (c : List Char) (d : Nat) (rest buf : List Char) (args : List (List Char)),
      hasTopComma d c = false →
      sgaGo (c ++ rest) d buf args = sgaGo rest (chunkDepth d c) (buf ++ c) args
  | [], d, rest, buf, args, _ => by simp [chunkDepth]
  | ch :: cs, d, rest, buf, args, h => by
    unfold hasTopComma at h
    simp only [Bool.or_eq_false_iff] at h
    have step : sgaGo ((ch :: cs) ++ rest) d buf args
        = sgaGo (cs ++ rest) (stepDepth ch d) (buf ++ [ch]) args := by
      rw [List.cons_append]
      conv_lhs => rw [sgaGo]
      rw [if_neg (by
        intro hc
        rw [decide_eq_false_iff_not] at h
        exact h.1 hc)]
    rw [step, sgaGo_chunk cs (stepDepth ch d) rest (buf ++ [ch]) args h.2,
      List.append_assoc]
    rfl

theorem sgaGo_comma (rest buf : List Char) (args : List (List Char)) :
    sgaGo (',' :: rest) 0 buf args = sgaGo rest 0 [] (args ++ [jsTrim buf]) := by
  conv_lhs => rw [sgaGo]
  rw [if_pos ⟨rfl, by decide⟩]
  rfl

theorem sgaGo_nil_of_ne {buf : List Char} (args : List (List Char)) (d : Nat)
    (h : jsTrim buf ≠ []) : sgaGo [] d buf args = args ++ [jsTrim buf] := by
  conv_lhs => rw [sgaGo]
  rw [if_neg h]

/-! ### Decimal digits of a natural number -/

theorem digitChar_isDigit {k : Nat} (h : k < 10) : isDigitChar (digitChar k) = true := by
  interval_cases k <;> decide

theorem digitVal_digitChar {k : Nat} (h : k < 10) : digitVal (digitChar k) = k := by
  interval_cases k <;> decide

theorem natOfDigits_append_singleton (l : List Char) (c : Char) :
    natOfDigits (l ++ [c]) = natOfDigits l * 10 + digitVal c := by
  unfold natOfDigits
  rw [List.foldl_append]
  rfl

theorem natToCharsAux_spec (fuel : Nat) : ∀ n, n ≤ fuel →
    natToCharsAux fuel n ≠ [] ∧ (∀ c ∈ natToCharsAux fuel n, isDigitChar c = true) ∧
      natOfDigits (natToCharsAux fuel n) = n := by
  induction fuel with
  | zero =>
    intro n h
    interval_cases n
    refine ⟨by simp [natToCharsAux], ?_, ?_⟩
    · intro c hc
      simp only [natToCharsAux, List.mem_singleton] at hc
      subst hc
      exact digitChar_isDigit (by omega)
    · show natOfDigits ([] ++ [digitChar 0]) = 0
      rw [natOfDigits_append_singleton]
      simp [natOfDigits, digitVal_digitChar (show (0 : Nat) < 10 by omega)]
  | succ fuel ih =>
    intro n hn
    by_cases h : n < 10
    · simp only [natToCharsAux, if_pos h]
      refine ⟨by simp, ?_, ?_⟩
      · intro c hc
        simp only [List.mem_singleton] at hc
        subst hc
        exact digitChar_isDigit h
      · show natOfDigits ([] ++ [digitChar n]) = n
        rw [natOfDigits_append_singleton]
        simp [natOfDigits, digitVal_digitChar h]
    · simp only [natToCharsAux, if_neg h]
      obtain ⟨h1, h2, h3⟩ := ih (n / 10) (by omega)
      refine ⟨by simp, ?_, ?_⟩
      · intro c hc
        rcases List.mem_append.mp hc with hc | hc
        · exact h2 c hc
        · simp only [List.mem_singleton] at hc
          subst hc
          exact digitChar_isDigit (Nat.mod_lt _ (by omega))
      · rw [natOfDigits_append_singleton, h3, digitVal_digitChar (Nat.mod_lt _ (by omega))]
        omega

theorem natToChars_spec (n : Nat) :
    natToChars n ≠ [] ∧ (∀ c ∈ natToChars n, isDigitChar c = true) ∧
      natOfDigits (natToChars n) = n :=
  natToCharsAux_spec n n le_rfl

/-! ### Parsing lemmas -/

theorem jsParseFloat_natToChars (n : Nat) : jsParseFloat (natToChars n) = some (n : ℚ) := by
  obtain ⟨h1, h2, h3⟩ := natToChars_spec n
  obtain ⟨c, cs, hcs⟩ := List.exists_cons_of_ne_nil h1
  have hc : isDigitChar c = true := h2 c (by rw [hcs]; simp)
  have hall : ∀ x ∈ c :: cs, isDigitChar x = true := by rw [← hcs]; exact h2
  have hval : natOfDigits (c :: cs) = n := by rw [← hcs]; exact h3
  rw [hcs]
  simp only [jsParseFloat,
    dropWhile_eq_self_of_all _ _ (fun x hx => isDigitChar_not_ws (hall x hx)),
    (isDigitChar_ne hc).2.2.2.1, (isDigitChar_ne hc).2.2.2.2.1,
    takeWhile_eq_self_of_all _ _ hall, List.drop_length, if_false]
  rw [if_neg (by simp)]
  rw [hval]
  simp [natOfDigits]

def natOfHexDigits (ds : List Char) : Nat :=
  ds.foldl (fun a c => a * 16 + hexDigitVal c) 0

theorem parseHexPrefixAux_foldl :
    ∀ (l : List Char) (acc : Nat), (∀ c ∈ l, isHexDigit c = true) →
      parseHexPrefixAux l acc = l.foldl (fun a c => a * 16 + hexDigitVal c) acc
  | [], _, _ => rfl
  | c :: rest, acc, h => by
    unfold parseHexPrefixAux
    rw [if_pos (h c (by simp)),
      parseHexPrefixAux_foldl rest _ (fun x hx => h x (by simp [hx]))]
    rfl

theorem natOfHexDigits_def (ds : List Char) :
    natOfHexDigits ds = ds.foldl (fun a c => a * 16 + hexDigitVal c) 0 := rfl

theorem isHexDigit_ne_sign {c : Char} (h : isHexDigit c = true) :
    c ≠ '-' ∧ c ≠ '+' ∧ c ≠ 'x' ∧ c ≠ 'X' := by
  refine ⟨?_, ?_, ?_, ?_⟩ <;> (intro hc; subst hc; exact absurd h (by decide))

theorem intSign_fst : ∀ l : List Char, (intSign l).1 = 1 ∨ (intSign l).1 = -1
  | [] => Or.inl rfl
  | c :: rest => by
    simp only [intSign]
    by_cases h1 : c = '-'
    · rw [if_pos h1]
      exact Or.inr rfl
    · rw [if_neg h1]
      by_cases h2 : c = '+'
      · rw [if_pos h2]
        exact Or.inl rfl
      · rw [if_neg h2]
        exact Or.inl rfl

theorem intSign_snd_length : ∀ l : List Char, (intSign l).2.length ≤ l.length
  | [] => le_refl _
  | c :: rest => by
    simp only [intSign]
    by_cases h1 : c = '-'
    · rw [if_pos h1]
      simp
    · rw [if_neg h1]
      by_cases h2 : c = '+'
      · rw [if_pos h2]
        simp
      · rw [if_neg h2]

theorem stripHexPrefix_length : ∀ l : List Char, (stripHexPrefix l).length ≤ l.length
  | [] => le_refl _
  | [_] => le_refl _
  | c0 :: cx :: rest => by
    simp only [stripHexPrefix]
    by_cases h : c0 = '0' ∧ (cx = 'x' ∨ cx = 'X')
    · rw [if_pos h]
      simp only [List.length_cons]
      omega
    · rw [if_neg h]

theorem jsParseIntHex_all_hex {l : List Char} (h1 : l ≠ [])
    (h2 : ∀ c ∈ l, isHexDigit c = true) :
    jsParseIntHex l = some ((natOfHexDigits l : Nat) : Int) := by
  obtain ⟨c, cs, hcs⟩ := List.exists_cons_of_ne_nil h1
  subst hcs
  have hdw : (c :: cs).dropWhile isJsWhitespace = c :: cs :=
    dropWhile_eq_self_of_all _ _ (fun x hx => isHexDigit_not_ws (h2 x hx))
  have hsign : intSign (c :: cs) = (1, c :: cs) := by
    simp only [intSign]
    rw [if_neg (isHexDigit_ne_sign (h2 c (by simp))).1,
      if_neg (isHexDigit_ne_sign (h2 c (by simp))).2.1]
  have hsign2 : (intSign ((c :: cs).dropWhile isJsWhitespace)).2 = c :: cs := by
    rw [hdw, hsign]
  have hsign1 : (intSign ((c :: cs).dropWhile isJsWhitespace)).1 = 1 := by
    rw [hdw, hsign]
  have hstrip : stripHexPrefix (c :: cs) = c :: cs := by
    match cs with
    | [] => rfl
    | cx :: rest =>
      have hcond : ¬(c = '0' ∧ (cx = 'x' ∨ cx = 'X')) := by
        intro hcontra
        rcases hcontra.2 with hx | hx
        · exact (isHexDigit_ne_sign (h2 cx (by simp))).2.2.1 hx
        · exact (isHexDigit_ne_sign (h2 cx (by simp))).2.2.2 hx
      simp only [stripHexPrefix]
      rw [if_neg hcond]
  unfold jsParseIntHex
  rw [hsign2, hsign1, hstrip]
  simp only [parseHexPrefix]
  rw [if_pos (h2 c (by simp))]
  rw [parseHexPrefixAux_foldl cs _ (fun x hx => h2 x (by simp [hx]))]
  simp [natOfHexDigits]

theorem hexDigitVal_le {c : Char} (h : isHexDigit c = true) : hexDigitVal c ≤ 15 := by
  unfold isHexDigit at h
  simp only [Bool.or_eq_true, Bool.and_eq_true, decide_eq_true_eq] at h
  unfold hexDigitVal
  rcases h with (h | h) | h
  · rw [if_pos h]
    omega
  · rw [if_neg (by omega), if_pos (by omega)]
    omega
  · rw [if_neg (by omega), if_neg (by omega)]
    omega

theorem parseHexPrefix_le_255 {l : List Char} {n : Nat} (hlen : l.length ≤ 2)
    (h : parseHexPrefix l = some n) : n ≤ 255 := by
  rcases l with _ | ⟨c1, _ | ⟨c2, rest⟩⟩
  · simp [parseHexPrefix] at h
  · simp only [parseHexPrefix] at h
    by_cases h1 : isHexDigit c1
    · rw [if_pos h1] at h
      have hn : n = hexDigitVal c1 := by
        cases h
        rfl
      have := hexDigitVal_le h1
      omega
    · rw [if_neg h1] at h
      cases h
  · have hrest : rest = [] := by
      simp only [List.length_cons] at hlen
      cases rest
      · rfl
      · simp at hlen
    subst hrest
    simp only [parseHexPrefix] at h
    by_cases h1 : isHexDigit c1
    · rw [if_pos h1] at h
      simp only [parseHexPrefixAux] at h
      by_cases h2 : isHexDigit c2
      · rw [if_pos h2] at h
        have hn : n = hexDigitVal c1 * 16 + hexDigitVal c2 := by
          cases h
          rfl
        have b1 := hexDigitVal_le h1
        have b2 := hexDigitVal_le h2
        omega
      · rw [if_neg h2] at h
        have hn : n = hexDigitVal c1 := by
          cases h
          rfl
        have := hexDigitVal_le h1
        omega
    · rw [if_neg h1] at h
      cases h

theorem jsParseIntHex_bounds {s : List Char} {a : Int} (hlen : s.length ≤ 2)
    (h : jsParseIntHex s = some a) : -255 ≤ a ∧ a ≤ 255 := by
  unfold jsParseIntHex at h
  obtain ⟨n, hn, hna⟩ := Option.map_eq_some'.mp h
  have hna2 : (intSign (s.dropWhile isJsWhitespace)).1 * (n : Int) = a := hna
  have hl3 : (stripHexPrefix (intSign (s.dropWhile isJsWhitespace)).2).length ≤ 2 :=
    le_trans (stripHexPrefix_length _)
      (le_trans (intSign_snd_length _)
        (le_trans (List.Sublist.length_le (List.dropWhile_sublist _)) hlen))
  have hn255 : n ≤ 255 := parseHexPrefix_le_255 hl3 hn
  rcases intSign_fst (s.dropWhile isJsWhitespace) with hs | hs <;> rw [hs] at hna2 <;>
    constructor <;> omega

/-! ### Rounding and clamping lemmas -/

theorem jsRound_natCast (n : Nat) : jsRound (n : ℚ) = n := by
  unfold jsRound
  rw [add_comm, Int.floor_add_nat]
  norm_num

theorem jsRound_nonneg {q : ℚ} (h : 0 ≤ q) : 0 ≤ jsRound q := by
  unfold jsRound
  exact Int.floor_nonneg.mpr (by linarith)

theorem jsRound_ge_neg100 {q : ℚ} (h : -100 ≤ q) : -100 ≤ jsRound q := by
  unfold jsRound
  rw [Int.le_floor]
  push_cast
  linarith

theorem jsRound_le_100 {q : ℚ} (h : q ≤ 100) : jsRound q ≤ 100 := by
  unfold jsRound
  calc ⌊q + 1 / 2⌋ ≤ ⌊(100 : ℚ) + 1 / 2⌋ := Int.floor_le_floor (by linarith)
    _ = 100 := by norm_num [Int.floor_eq_iff]

theorem clampQ_of_le {v lo hi : ℚ} (h1 : lo ≤ v) (h2 : v ≤ hi) : clampQ v lo hi = v := by
  unfold clampQ
  rw [max_eq_left h1, min_eq_left h2]

theorem clampQ_mem {v lo hi : ℚ} (h : lo ≤ hi) :
    lo ≤ clampQ v lo hi ∧ clampQ v lo hi ≤ hi := by
  unfold clampQ
  exact ⟨le_min (le_max_right v lo) h, min_le_right _ _⟩

/-! ### Solid color lemmas -/

theorem splitOnCommaAux_no_comma :
    ∀ (l buf : List Char), (∀ c ∈ l, c ≠ ',') →
      splitOnCommaAux l buf = [buf.reverse ++ l]
  | [], buf, _ => by simp [splitOnCommaAux]
  | c :: rest, buf, h => by
    unfold splitOnCommaAux
    rw [if_neg (h c (by simp)),
      splitOnCommaAux_no_comma rest (c :: buf) (fun x hx => h x (by simp [hx]))]
    simp

theorem splitOnCommaAux_through :
    ∀ (A rest buf : List Char), (∀ c ∈ A, c ≠ ',') →
      splitOnCommaAux (A ++ ',' :: rest) buf =
        (buf.reverse ++ A) :: splitOnCommaAux rest []
  | [], rest, buf, _ => by
    simp only [List.nil_append]
    conv_lhs => rw [splitOnCommaAux]
    rw [if_pos rfl]
    simp
  | a :: A2, rest, buf, h => by
    rw [List.cons_append]
    conv_lhs => rw [splitOnCommaAux]
    rw [if_neg (h a (by simp)),
      splitOnCommaAux_through A2 rest (a :: buf) (fun x hx => h x (by simp [hx]))]
    simp

theorem matchRgbTail_group (BODY tail : List Char) (hne : BODY ≠ [])
    (hnp : ∀ x ∈ BODY, x ≠ ')') :
    matchRgbTail ('(' :: (BODY ++ ')' :: tail)) = some BODY := by
  have hp : ∀ x ∈ BODY, (fun c : Char => (decide (c ≠ ')'))) x = true := by
    intro x hx
    simp [hnp x hx]
  have hc1 : BODY.length ≠ 0 := by
    intro h0
    exact hne (List.length_eq_zero.mp h0)
  have htw : (BODY ++ ')' :: tail).takeWhile (fun c : Char => decide (c ≠ ')')) = BODY := by
    rw [takeWhile_append_of_all _ BODY (')' :: tail) hp, List.takeWhile_cons]
    simp
  simp only [matchRgbTail]
  rw [if_true, htw, List.drop_left, if_pos ⟨hc1, rfl⟩]

theorem matchRgbAt_rgb (BODY tail : List Char) (hne : BODY ≠ [])
    (hnp : ∀ x ∈ BODY, x ≠ ')') :
    matchRgbAt ('r' :: 'g' :: 'b' :: '(' :: (BODY ++ ')' :: tail)) = some BODY := by
  have hskip : skipOptA ('(' :: (BODY ++ ')' :: tail)) = '(' :: (BODY ++ ')' :: tail) := by
    simp only [skipOptA]
    rw [if_neg (by decide)]
  simp only [matchRgbAt]
  rw [if_pos (by decide), hskip, matchRgbTail_group BODY tail hne hnp]

theorem searchRgb_cons_of_match {c : Char} {rest grp : List Char}
    (h : matchRgbAt (c :: rest) = some grp) : searchRgb (c :: rest) = some grp := by
  unfold searchRgb
  rw [h]

theorem parseRgbColor_of_search {v inner : List Char} (h : searchRgb v = some inner) :
    parseRgbColor v =
      parseRgbParts (((splitOnComma inner).map jsTrim).filter (fun p => p.length ≠ 0)) := by
  unfold parseRgbColor
  rw [h]

theorem parseCssColor_hash (d : List Char) :
    parseCssColor ('#' :: d) = parseHexColor ('#' :: d) := by
  unfold parseCssColor
  rw [if_neg (by simp), if_pos (show ('#' :: d).head? = some '#' from rfl)]

theorem parseHexColor_hash (d : List Char) (hhex : ∀ c ∈ d, isHexDigit c = true) :
    parseHexColor ('#' :: d) =
      if d.length = 6 then some { hex := '#' :: d, alpha := some 100 }
      else if d.length = 8 then
        some { hex := '#' :: d.take 6,
               alpha := (jsParseIntHex ((d.drop 6).take 2)).map
                 (fun a : Int => jsRound ((a : ℚ) / 255 * 100)) }
      else none := by
  have h12 : jsTrim (removeFirstHash ('#' :: d)) = d := by
    have h1 : removeFirstHash ('#' :: d) = d := by simp [removeFirstHash]
    rw [h1]
    exact jsTrim_eq_self_of_all (fun c hc => isHexDigit_not_ws (hhex c hc))
  unfold parseHexColor
  rw [h12]

theorem parseHexColor_alpha {v : List Char} {sc : SolidColor} {a : Int}
    (h : parseHexColor v = some sc) (ha : sc.alpha = some a) :
    -100 ≤ a ∧ a ≤ 100 := by
  unfold parseHexColor at h
  split at h
  · simp only [Option.some.injEq] at h
    subst h
    have ha2 : some (100 : Int) = some a := ha
    cases ha2
    decide
  · split at h
    · simp only [Option.some.injEq] at h
      subst h
      obtain ⟨n, hn, hfa⟩ := Option.map_eq_some'.mp ha
      subst hfa
      obtain ⟨hlo, hhi⟩ := jsParseIntHex_bounds (List.length_take_le _ _) hn
      have h255 : (n : ℚ) ≤ 255 := by exact_mod_cast hhi
      have h255lo : (-255 : ℚ) ≤ (n : ℚ) := by exact_mod_cast hlo
      refine ⟨jsRound_ge_neg100 ?_, jsRound_le_100 ?_⟩
      · rw [div_mul_eq_mul_div, le_div_iff₀ (by norm_num)]
        nlinarith
      · rw [div_mul_eq_mul_div, div_le_iff₀ (by norm_num)]
        nlinarith
    · exact Option.noConfusion h

theorem parseRgbColor_alpha {v : List Char} {sc : SolidColor} {a : Int}
    (h : parseRgbColor v = some sc) (ha : sc.alpha = some a) :
    0 ≤ a ∧ a ≤ 100 := by
  unfold parseRgbColor at h
  split at h
  · exact Option.noConfusion h
  · unfold parseRgbParts at h
    split at h
    · exact Option.noConfusion h
    · simp only [Option.some.injEq] at h
      subst h
      obtain ⟨q, hq, hqa⟩ := Option.map_eq_some'.mp ha
      subst hqa
      have hq01 : 0 ≤ q ∧ q ≤ 1 := by
        unfold rgbAlphaArg at hq
        split at hq
        · obtain ⟨q0, _, hg⟩ := Option.map_eq_some'.mp hq
          subst hg
          exact clampQ_mem (by norm_num)
        · simp only [Option.some.injEq] at hq
          subst hq
          norm_num
      obtain ⟨hq0, hq1⟩ := hq01
      exact ⟨jsRound_nonneg (by nlinarith), jsRound_le_100 (by nlinarith)⟩

theorem parseCssColor_alpha {v : List Char} {sc : SolidColor} {a : Int}
    (h : parseCssColor v = some sc) (ha : sc.alpha = some a) :
    -100 ≤ a ∧ a ≤ 100 := by
  unfold parseCssColor at h
  split at h
  · exact Option.noConfusion h
  · split at h
    · exact parseHexColor_alpha h ha
    · split at h
      · obtain ⟨h0, h1⟩ := parseRgbColor_alpha h ha
        exact ⟨by linarith, h1⟩
      · exact Option.noConfusion h

theorem parseRgb_canonical (r g b : Nat) (hr : r ≤ 255) (hg : g ≤ 255) (hb : b ≤ 255) :
    parseCssColor (rgbSerial r g b) =
      some { hex := '#' :: (padStart2 (natToHexChars r) ++ padStart2 (natToHexChars g) ++
               padStart2 (natToHexChars b)),
             alpha := some 100 } := by
  obtain ⟨hrne, hrdig, _⟩ := natToChars_spec r
  obtain ⟨hgne, hgdig, _⟩ := natToChars_spec g
  obtain ⟨hbne, hbdig, _⟩ := natToChars_spec b
  have hnc : ∀ x ∈ rgbBody r g b, x ≠ ')' := by
    intro x hx
    unfold rgbBody at hx
    rcases List.mem_append.mp hx with hx | hx
    · exact (isDigitChar_ne (hrdig x hx)).2.2.1
    · rcases List.mem_cons.mp hx with rfl | hx
      · decide
      · rcases List.mem_append.mp hx with hx | hx
        · exact (isDigitChar_ne (hgdig x hx)).2.2.1
        · rcases List.mem_cons.mp hx with rfl | hx
          · decide
          · exact (isDigitChar_ne (hbdig x hx)).2.2.1
  have hbodyne : rgbBody r g b ≠ [] := by
    unfold rgbBody
    intro hcontra
    exact hrne (List.append_eq_nil.mp hcontra).1
  have hm : matchRgbAt ('r' :: 'g' :: 'b' :: '(' :: (rgbBody r g b ++ ')' :: [])) =
      some (rgbBody r g b) := matchRgbAt_rgb _ [] hbodyne hnc
  have hs : searchRgb (rgbSerial r g b) = some (rgbBody r g b) := by
    unfold rgbSerial
    exact searchRgb_cons_of_match hm
  have hlen : ¬((rgbSerial r g b).length = 0) := by
    unfold rgbSerial
    simp
  have hhash : ¬((rgbSerial r g b).head? = some '#') := by
    rw [show (rgbSerial r g b).head? = some 'r' from rfl]
    decide
  have hrgb : ((rgbSerial r g b).take 3).map Char.toLower = toChars "rgb" := rfl
  unfold parseCssColor
  rw [if_neg hlen, if_neg hhash, if_pos hrgb, parseRgbColor_of_search hs]
  have hsp : splitOnComma (rgbBody r g b) = [natToChars r, natToChars g, natToChars b] := by
    unfold splitOnComma rgbBody
    rw [splitOnCommaAux_through (natToChars r) _ [] (fun x hx => (isDigitChar_ne (hrdig x hx)).1),
      splitOnCommaAux_through (natToChars g) _ [] (fun x hx => (isDigitChar_ne (hgdig x hx)).1),
      splitOnCommaAux_no_comma (natToChars b) [] (fun x hx => (isDigitChar_ne (hbdig x hx)).1)]
    simp
  rw [hsp]
  have hmap : ([natToChars r, natToChars g, natToChars b].map jsTrim) =
      [natToChars r, natToChars g, natToChars b] := by
    simp only [List.map_cons, List.map_nil]
    rw [jsTrim_eq_self_of_all (fun c hc => isDigitChar_not_ws (hrdig c hc)),
      jsTrim_eq_self_of_all (fun c hc => isDigitChar_not_ws (hgdig c hc)),
      jsTrim_eq_self_of_all (fun c hc => isDigitChar_not_ws (hbdig c hc))]
  rw [hmap]
  have hfil : ([natToChars r, natToChars g, natToChars b].filter (fun p => p.length ≠ 0)) =
      [natToChars r, natToChars g, natToChars b] := by
    rw [List.filter_eq_self]
    intro x hx
    rcases List.mem_cons.mp hx with rfl | hx
    · simp [List.length_eq_zero, hrne]
    · rcases List.mem_cons.mp hx with rfl | hx
      · simp [List.length_eq_zero, hgne]
      · rcases List.mem_cons.mp hx with rfl | hx
        · simp [List.length_eq_zero, hbne]
        · exact absurd hx (List.not_mem_nil x)
  rw [hfil]
  unfold parseRgbParts
  rw [if_neg (by simp)]
  show (some { hex := '#' ::
                 (toHexByte ((jsParseFloat (natToChars r)).map (fun q => clampQ q 0 255)) ++
                   toHexByte ((jsParseFloat (natToChars g)).map (fun q => clampQ q 0 255)) ++
                   toHexByte ((jsParseFloat (natToChars b)).map (fun q => clampQ q 0 255))),
               alpha := (rgbAlphaArg [natToChars r, natToChars g, natToChars b]).map
                 (fun q => jsRound (q * 100)) } : Option SolidColor) = _
  rw [jsParseFloat_natToChars r, jsParseFloat_natToChars g, jsParseFloat_natToChars b]
  simp only [Option.map]
  rw [clampQ_of_le (Nat.cast_nonneg r) (by exact_mod_cast hr),
    clampQ_of_le (Nat.cast_nonneg g) (by exact_mod_cast hg),
    clampQ_of_le (Nat.cast_nonneg b) (by exact_mod_cast hb)]
  have hHex : ∀ n : Nat, toHexByte (some ((n : ℚ))) = padStart2 (natToHexChars n) := by
    intro n
    simp only [toHexByte]
    rw [jsRound_natCast]
    simp
  rw [hHex r, hHex g, hHex b,
    show rgbAlphaArg [natToChars r, natToChars g, natToChars b] = some 1 from rfl]
  simp only [Option.map]
  rw [show (1 : ℚ) * 100 = ((100 : ℕ) : ℚ) from by norm_num, jsRound_natCast]
  norm_num

theorem parse_rgba_half :
    parseCssColor (toChars "rgba(0,0,0,0.5)") =
      some { hex := toChars "#000000", alpha := some 50 } := by
  have hsearch : searchRgb (toChars "rgba(0,0,0,0.5)") = some (toChars "0,0,0,0.5") := by
    decide
  have hparts : ((splitOnComma (toChars "0,0,0,0.5")).map jsTrim).filter
      (fun p => p.length ≠ 0) = [toChars "0", toChars "0", toChars "0", toChars "0.5"] := by
    decide
  have h0 : jsParseFloat (toChars "0") = some ((0 : ℕ) : ℚ) := by
    rw [show toChars "0" = natToChars 0 from by decide]
    exact jsParseFloat_natToChars 0
  have h05 : jsParseFloat (toChars "0.5") = some ((1 : ℚ) / 2) := by
    have hraw : jsParseFloat (toChars "0.5") =
        some (1 * ((natOfDigits ['0'] : ℚ) + (natOfDigits ['5'] : ℚ) / 10 ^ 1) *
          (10 : ℚ) ^ (0 : ℤ)) := rfl
    rw [hraw, show natOfDigits ['0'] = 0 from rfl, show natOfDigits ['5'] = 5 from rfl]
    norm_num
  rw [show parseCssColor (toChars "rgba(0,0,0,0.5)") =
      parseRgbColor (toChars "rgba(0,0,0,0.5)") from by
    unfold parseCssColor
    rw [if_neg (by decide), if_neg (by decide), if_pos (by decide)]]
  rw [parseRgbColor_of_search hsearch, hparts]
  unfold parseRgbParts
  rw [if_neg (by decide)]
  show (some { hex := '#' ::
                 (toHexByte ((jsParseFloat (toChars "0")).map (fun q => clampQ q 0 255)) ++
                   toHexByte ((jsParseFloat (toChars "0")).map (fun q => clampQ q 0 255)) ++
                   toHexByte ((jsParseFloat (toChars "0")).map (fun q => clampQ q 0 255))),
               alpha := ((jsParseFloat (toChars "0.5")).map (fun q => clampQ q 0 1)).map
                 (fun q => jsRound (q * 100)) } : Option SolidColor) = _
  rw [h0, h05]
  simp only [Option.map]
  rw [clampQ_of_le (Nat.cast_nonneg 0) (by norm_num),
    clampQ_of_le (by norm_num) (by norm_num)]
  rw [show toHexByte (some ((0 : ℕ) : ℚ)) = toChars "00" from by
    simp only [toHexByte]
    rw [jsRound_natCast]
    decide]
  rw [show (1 : ℚ) / 2 * 100 = ((50 : ℕ) : ℚ) from by norm_num, jsRound_natCast]
  norm_num
  decide

theorem parse_hex_negative :
    parseCssColor (toChars "#abcdef-9") =
      some { hex := toChars "#abcdef", alpha := some (-4) } := by
  have hfloor : jsRound (((-9 : ℤ) : ℚ) / 255 * 100) = -4 := by
    rw [show (((-9 : ℤ) : ℚ)) = -9 from by norm_num]
    unfold jsRound
    rw [Int.floor_eq_iff]
    constructor <;> norm_num
  show parseCssColor ('#' :: toChars "abcdef-9") = _
  rw [parseCssColor_hash]
  unfold parseHexColor
  rw [show jsTrim (removeFirstHash ('#' :: toChars "abcdef-9")) = toChars "abcdef-9" from by
    decide]
  rw [if_neg (by decide), if_pos (by decide)]
  rw [show ((toChars "abcdef-9").drop 6).take 2 = toChars "-9" from by decide]
  rw [show jsParseIntHex (toChars "-9") = some (-9 : ℤ) from by decide]
  simp only [Option.map]
  rw [hfloor]
  decide

/-! ### Token registry lemmas -/

/-- A color string in the recognized serialized position: nonempty,
already trimmed, parenthesis-balanced under the clamped depth scan, and
free of top-level commas. -/
def gradientColorOk (c : List Char) : Bool :=
  decide (c ≠ []) && decide (jsTrim c = c) && decide (chunkDepth 0 c = 0) &&
    decide (hasTopComma 0 c = false)

theorem gradColor_facts {c : List Char} (h : gradientColorOk c = true) :
    c ≠ [] ∧ jsTrim c = c ∧ chunkDepth 0 c = 0 ∧ hasTopComma 0 c = false := by
  unfold gradientColorOk at h
  simp only [Bool.and_eq_true, decide_eq_true_eq] at h
  exact ⟨h.1.1.1, h.1.1.2, h.1.2, h.2⟩

theorem jsTrim_id_of_ends {s : List Char}
    (h1 : ∀ c, s.head? = some c → isJsWhitespace c = false)
    (h2 : ∀ c, s.getLast? = some c → isJsWhitespace c = false) : jsTrim s = s := by
  unfold jsTrim
  have d1 : s.dropWhile isJsWhitespace = s := by
    cases s with
    | nil => rfl
    | cons a t =>
      rw [List.dropWhile_cons, h1 a rfl]
      simp
  rw [d1]
  have d2 : s.reverse.dropWhile isJsWhitespace = s.reverse := by
    cases hr : s.reverse with
    | nil => rfl
    | cons a t =>
      rw [List.dropWhile_cons]
      have ha : s.getLast? = some a := by
        rw [← List.head?_reverse, hr]
        rfl
      rw [h2 a ha]
      simp
  rw [d2, List.reverse_reverse]

/-- The argument split of the inside of a serialized two-color gradient
whose first argument is a plain chunk (no whitespace, commas or
parentheses). -/
theorem splitGradientArgs_serialized (A c1 c2 : List Char)
    (hAp : ∀ x ∈ A, x ≠ ',' ∧ x ≠ '(' ∧ x ≠ ')')
    (hAw : ∀ x ∈ A, isJsWhitespace x = false)
    (h1 : gradientColorOk c1 = true) (h2 : gradientColorOk c2 = true) :
    splitGradientArgs (A ++ (',' :: ' ' :: (c1 ++ (',' :: ' ' :: c2)))) = [A, c1, c2] := by
  obtain ⟨h1a, h1b, h1c, h1d⟩ := gradColor_facts h1
  obtain ⟨h2a, h2b, h2c, h2d⟩ := gradColor_facts h2
  unfold splitGradientArgs
  rw [show (A ++ (',' :: ' ' :: (c1 ++ (',' :: ' ' :: c2)))) =
    A ++ (',' :: (' ' :: (c1 ++ (',' :: (' ' :: c2))))) from rfl]
  rw [sgaGo_chunk A 0 _ [] [] (hasTopComma_plain A 0 hAp)]
  rw [chunkDepth_plain A 0 (fun x hx => ⟨(hAp x hx).2.1, (hAp x hx).2.2⟩)]
  rw [sgaGo_comma]
  rw [show (' ' :: (c1 ++ (',' :: (' ' :: c2)))) =
    (' ' :: c1) ++ (',' :: (' ' :: c2)) from by simp]
  have hc1t : hasTopComma 0 (' ' :: c1) = false := h1d
  rw [sgaGo_chunk (' ' :: c1) 0 _ [] _ hc1t]
  have hc1d : chunkDepth 0 (' ' :: c1) = 0 := h1c
  rw [hc1d, sgaGo_comma]
  rw [show (' ' :: c2) = (' ' :: c2) ++ ([] : List Char) from by simp]
  have hc2t : hasTopComma 0 (' ' :: c2) = false := h2d
  rw [sgaGo_chunk (' ' :: c2) 0 [] [] _ hc2t]
  rw [sgaGo_nil_of_ne _ _ (by
    simp only [List.nil_append]
    rw [jsTrim_cons_space, h2b]
    exact h2a)]
  simp only [List.nil_append]
  rw [jsTrim_eq_self_of_all hAw, jsTrim_cons_space, jsTrim_cons_space, h1b, h2b]
  rfl

/-- The angle regex matches the serialized integer angle at the head of
the first argument and captures exactly its digits. -/
theorem searchAngle_digits_deg (n : Nat) :
    searchAngle (natToChars n ++ toChars "deg") = some (natToChars n) := by
  obtain ⟨hn1, hn2, _⟩ := natToChars_spec n
  obtain ⟨c, cs, hcs⟩ := List.exists_cons_of_ne_nil hn1
  have hall : ∀ x ∈ c :: cs, isDigitChar x = true := by rw [← hcs]; exact hn2
  have hc : isDigitChar c = true := hall c (by simp)
  have hmatch : matchAngleAt ((c :: cs) ++ toChars "deg") = some (c :: cs) := by
    unfold matchAngleAt
    rw [List.cons_append]
    simp only [if_neg ((isDigitChar_ne hc).2.2.2.1)]
    rw [show (c :: (cs ++ toChars "deg")) = (c :: cs) ++ toChars "deg" from rfl]
    rw [takeWhile_append_of_all _ _ _ hall]
    rw [show (toChars "deg").takeWhile isDigitChar = [] from rfl]
    rw [List.append_nil]
    rw [if_neg (by simp)]
    rw [List.drop_left]
    rfl
  rw [hcs]
  rw [List.cons_append]
  unfold searchAngle
  rw [show (c :: (cs ++ toChars "deg")) = (c :: cs) ++ toChars "deg" from rfl, hmatch]


theorem serializeGradient_shape (n : Nat) (c1 c2 : List Char) :
    serializeGradient n c1 c2 =
      toChars "linear-gradient(" ++
        (((natToChars n ++ toChars "deg") ++
          (',' :: ' ' :: (c1 ++ (',' :: ' ' :: c2)))) ++ [')']) := by
  unfold serializeGradient
  simp only [List.append_assoc, List.cons_append]
  rfl

theorem findIndex_lparen (Y : List Char) :
    findIndex (fun c => c = '(') (toChars "linear-gradient(" ++ Y) = some 15 := rfl

/-- Parsing back a serialized two-color gradient with an integer angle
recovers exactly the structured form that was serialized. -/
theorem parseGradient_serializeGradient (n : Nat) (c1 c2 : List Char)
    (h1 : gradientColorOk c1 = true) (h2 : gradientColorOk c2 = true) :
    parseGradient (serializeGradient n c1 c2) =
      some { angle := (n : ℚ), startColor := c1, endColor := c2 } := by
  obtain ⟨hn1, hn2, _⟩ := natToChars_spec n
  have hAp : ∀ x ∈ natToChars n ++ toChars "deg", x ≠ ',' ∧ x ≠ '(' ∧ x ≠ ')' := by
    intro x hx
    rcases List.mem_append.mp hx with hx | hx
    · have hd := hn2 x hx
      exact ⟨(isDigitChar_ne hd).1, (isDigitChar_ne hd).2.1, (isDigitChar_ne hd).2.2.1⟩
    · have hx3 : x ∈ ['d', 'e', 'g'] := hx
      simp only [List.mem_cons, List.mem_singleton, List.not_mem_nil, or_false] at hx3
      rcases hx3 with rfl | rfl | rfl <;> exact ⟨by decide, by decide, by decide⟩
  have hAw : ∀ x ∈ natToChars n ++ toChars "deg", isJsWhitespace x = false := by
    intro x hx
    rcases List.mem_append.mp hx with hx | hx
    · exact isDigitChar_not_ws (hn2 x hx)
    · have hx3 : x ∈ ['d', 'e', 'g'] := hx
      simp only [List.mem_cons, List.mem_singleton, List.not_mem_nil, or_false] at hx3
      rcases hx3 with rfl | rfl | rfl <;> decide
  have hlast : (serializeGradient n c1 c2).getLast? = some ')' := by
    rw [serializeGradient_shape, ← List.append_assoc]
    exact List.getLast?_concat _
  have htrim : jsTrim (serializeGradient n c1 c2) = serializeGradient n c1 c2 := by
    apply jsTrim_id_of_ends
    · intro c hc
      have hh : (serializeGradient n c1 c2).head? = some 'l' := by
        rw [serializeGradient_shape]
        rfl
      rw [hh] at hc
      cases hc
      decide
    · intro c hc
      rw [hlast] at hc
      cases hc
      decide
  unfold parseGradient
  rw [htrim, serializeGradient_shape]
  unfold parseGradientCore
  rw [if_neg (not_not_intro (by
    rw [List.take_left' (by rfl)]
    rfl))]
  rw [if_neg (not_not_intro (by
    rw [← List.append_assoc]
    exact List.getLast?_concat _))]
  rw [findIndex_lparen, Option.getD_some]
  have hdrop : (toChars "linear-gradient(" ++
      (((natToChars n ++ toChars "deg") ++
        (',' :: ' ' :: (c1 ++ (',' :: ' ' :: c2)))) ++ [')'])).drop (15 + 1) =
      (((natToChars n ++ toChars "deg") ++
        (',' :: ' ' :: (c1 ++ (',' :: ' ' :: c2)))) ++ [')']) :=
    List.drop_left' (by rfl)
  rw [hdrop, List.dropLast_concat]
  rw [splitGradientArgs_serialized _ c1 c2 hAp hAw h1 h2]
  unfold parseGradientArgs
  rw [if_neg (by simp)]
  have hget0 : ([natToChars n ++ toChars "deg", c1, c2].getD 0 []) =
      natToChars n ++ toChars "deg" := rfl
  rw [hget0, searchAngle_digits_deg]
  simp only [jsParseFloat_natToChars, Option.getD_some]
  rfl

/-- When the first argument carries no angle text the angle defaults
to 90 and the first two arguments are the colors. -/
theorem parseGradient_no_angle (c0 c1 : List Char)
    (h0 : gradientColorOk c0 = true) (h1 : gradientColorOk c1 = true)
    (hna : searchAngle c0 = none)
    (hw : ∀ x ∈ c0, isJsWhitespace x = false) :
    parseGradient (toChars "linear-gradient(" ++ (c0 ++ (',' :: ' ' :: c1)) ++ [')']) =
      some { angle := 90, startColor := c0, endColor := c1 } := by
  obtain ⟨h0a, h0b, h0c, h0d⟩ := gradColor_facts h0
  obtain ⟨h1a, h1b, h1c, h1d⟩ := gradColor_facts h1
  have hargs : splitGradientArgs (c0 ++ (',' :: ' ' :: c1)) = [c0, c1] := by
    unfold splitGradientArgs
    rw [show (c0 ++ (',' :: ' ' :: c1)) = c0 ++ (',' :: (' ' :: c1)) from rfl]
    rw [sgaGo_chunk c0 0 _ [] [] h0d, h0c, sgaGo_comma]
    rw [show (' ' :: c1) = (' ' :: c1) ++ ([] : List Char) from by simp]
    have hc1t : hasTopComma 0 (' ' :: c1) = false := h1d
    rw [sgaGo_chunk (' ' :: c1) 0 [] [] _ hc1t]
    rw [sgaGo_nil_of_ne _ _ (by
      simp only [List.nil_append]
      rw [jsTrim_cons_space, h1b]
      exact h1a)]
    simp only [List.nil_append]
    rw [jsTrim_eq_self_of_all hw, jsTrim_cons_space, h1b]
    rfl
  have hlast : (toChars "linear-gradient(" ++ (c0 ++ (',' :: ' ' :: c1)) ++ [')']).getLast? =
      some ')' := List.getLast?_concat _
  have htrim : jsTrim (toChars "linear-gradient(" ++ (c0 ++ (',' :: ' ' :: c1)) ++ [')']) =
      toChars "linear-gradient(" ++ (c0 ++ (',' :: ' ' :: c1)) ++ [')'] := by
    apply jsTrim_id_of_ends
    · intro c hc
      have hh : (toChars "linear-gradient(" ++ (c0 ++ (',' :: ' ' :: c1)) ++ [')']).head? =
          some 'l' := rfl
      rw [hh] at hc
      cases hc
      decide
    · intro c hc
      rw [hlast] at hc
      cases hc
      decide
  unfold parseGradient
  rw [htrim]
  unfold parseGradientCore
  rw [if_neg (not_not_intro (by
    rw [List.append_assoc, List.take_left' (by rfl)]
    rfl))]
  rw [if_neg (not_not_intro hlast)]
  rw [List.append_assoc, findIndex_lparen, Option.getD_some]
  have hdrop : (toChars "linear-gradient(" ++
      ((c0 ++ (',' :: ' ' :: c1)) ++ [')'])).drop (15 + 1) =
      ((c0 ++ (',' :: ' ' :: c1)) ++ [')']) :=
    List.drop_left' (by rfl)
  rw [hdrop, List.dropLast_concat, hargs]
  unfold parseGradientArgs
  rw [if_neg (by simp)]
  have hget0 : ([c0, c1].getD 0 []) = c0 := rfl
  rw [hget0, hna]
  rfl


/-- C8: the gradient parser splits arguments on top-level commas only,
tracking parenthesis depth, so rgba stops survive intact; the string
linear-gradient of 45deg, rgba(0,0,0,0.5) and #ffffff parses to angle
45 with exactly those two color strings, and serializing that structured
form reproduces the very same string; in general, parsing back a
serialized gradient recovers the serialized structured form (so
re-serialization yields an equivalent gradient string); and when the
first argument carries no angle text the angle defaults to 90. -/
theorem gradient_codec_spec :
    parseGradient (toChars "linear-gradient(45deg, rgba(0,0,0,0.5), #ffffff)") =
      some { angle := 45, startColor := toChars "rgba(0,0,0,0.5)",
             endColor := toChars "#ffffff" } ∧
    serializeGradient 45 (toChars "rgba(0,0,0,0.5)") (toChars "#ffffff") =
      toChars "linear-gradient(45deg, rgba(0,0,0,0.5), #ffffff)" ∧
    (∀ (n : Nat) (c1 c2 : List Char),
      gradientColorOk c1 = true → gradientColorOk c2 = true →
      parseGradient (serializeGradient n c1 c2) =
        some { angle := (n : ℚ), startColor := c1, endColor := c2 }) ∧
    (∀ c0 c1 : List Char,
      gradientColorOk c0 = true → gradientColorOk c1 = true →
      searchAngle c0 = none →
      (∀ x ∈ c0, isJsWhitespace x = false) →
      parseGradient (toChars "linear-gradient(" ++ (c0 ++ (',' :: ' ' :: c1)) ++ [')']) =
        some { angle := 90, startColor := c0, endColor := c1 }) :=
  ⟨by
    have hs : serializeGradient 45 (toChars "rgba(0,0,0,0.5)") (toChars "#ffffff") =
        toChars "linear-gradient(45deg, rgba(0,0,0,0.5), #ffffff)" := by decide
    have hp := parseGradient_serializeGradient 45 (toChars "rgba(0,0,0,0.5)")
      (toChars "#ffffff") (by decide) (by decide)
    rw [hs] at hp
    simpa using hp,
  by decide, parseGradient_serializeGradient, parseGradient_no_angle⟩

/-- C8 witness. -/
theorem gradient_codec_spec_witness :
    gradientColorOk (toChars "rgba(0,0,0,0.5)") = true ∧
    gradientColorOk (toChars "#ffffff") = true ∧
    parseGradient (serializeGradient 45 (toChars "rgba(0,0,0,0.5)") (toChars "#ffffff")) =
      some { angle := ((45 : Nat) : ℚ), startColor := toChars "rgba(0,0,0,0.5)",
             endColor := toChars "#ffffff" } ∧
    searchAngle (toChars "red") = none ∧
    parseGradient (toChars "linear-gradient(" ++
        (toChars "red" ++ (',' :: ' ' :: toChars "blue")) ++ [')']) =
      some { angle := 90, startColor := toChars "red", endColor := toChars "blue" } :=
  ⟨by decide, by decide,
    gradient_codec_spec.2.2.1 45 (toChars "rgba(0,0,0,0.5)") (toChars "#ffffff")
      (by decide) (by decide),
    by decide,
    gradient_codec_spec.2.2.2 (toChars "red") (toChars "blue") (by decide) (by decide)
      (by decide) (by decide)⟩

/-- C9 counterexample: the parser does NOT recognize 3-digit hex; the
claimed expansion of a 3-digit shorthand to its 6-digit form with full
opacity never happens, parseCssColor simply rejects the value. -/
theorem solid_color_counterexample : parseCssColor (toChars "#abc") = none := by
  decide

/-- C9 (amended): the solid-color parser recognizes 6- and 8-digit hex
and rgb()/rgba() functional notation, but not 3-digit hex, which parses
to none. A 6-digit hex keeps its digits with alpha 100; an 8-digit hex
truncates to its 6-digit RGB part with the last two digits scaled from
0 to 255 into a rounded percentage; rgb() with three integer channels
yields the two-digit hex bytes with alpha defaulting to 100; rgba()
takes a fourth 0-to-1 channel scaled by 100, so rgba(0,0,0,0.5) yields
alpha 50. The alpha of a parsed rgb()/rgba() value is always an integer
between 0 and 100, but the claimed 0-to-100 range does NOT hold of
every parsed result: parseInt keeps a leading minus in the alpha slice
of an 8-digit hex, so a hash, abcdef and minus-9 parses to alpha -4;
every alpha the parser can produce lies between -100 and 100. -/
theorem solid_color_parser_spec :
    (∀ d : List Char, (∀ c ∈ d, isHexDigit c = true) → d.length = 3 →
      parseCssColor ('#' :: d) = none) ∧
    (∀ d : List Char, (∀ c ∈ d, isHexDigit c = true) → d.length = 6 →
      parseCssColor ('#' :: d) = some { hex := '#' :: d, alpha := some 100 }) ∧
    (∀ d : List Char, (∀ c ∈ d, isHexDigit c = true) → d.length = 8 →
      parseCssColor ('#' :: d) =
        some { hex := '#' :: d.take 6,
               alpha := some (jsRound ((natOfHexDigits (d.drop 6) : ℚ) / 255 * 100)) }) ∧
    (∀ r g b : Nat, r ≤ 255 → g ≤ 255 → b ≤ 255 →
      parseCssColor (rgbSerial r g b) =
        some { hex := '#' :: (padStart2 (natToHexChars r) ++ padStart2 (natToHexChars g) ++
                 padStart2 (natToHexChars b)),
               alpha := some 100 }) ∧
    parseCssColor (toChars "rgba(0,0,0,0.5)") =
      some { hex := toChars "#000000", alpha := some 50 } ∧
    parseCssColor (toChars "#abcdef-9") =
      some { hex := toChars "#abcdef", alpha := some (-4) } ∧
    (∀ (v : List Char) (sc : SolidColor) (a : Int),
      parseCssColor v = some sc → sc.alpha = some a → -100 ≤ a ∧ a ≤ 100) ∧
    (∀ (v : List Char) (sc : SolidColor) (a : Int),
      parseRgbColor v = some sc → sc.alpha = some a → 0 ≤ a ∧ a ≤ 100) := by
  refine ⟨?_, ?_, ?_, fun r g b hr hg hb => parseRgb_canonical r g b hr hg hb,
    parse_rgba_half, parse_hex_negative,
    fun v sc a h ha => parseCssColor_alpha h ha,
    fun v sc a h ha => parseRgbColor_alpha h ha⟩
  · intro d hhex h3
    rw [parseCssColor_hash, parseHexColor_hash d hhex, if_neg (by omega), if_neg (by omega)]
  · intro d hhex h6
    rw [parseCssColor_hash, parseHexColor_hash d hhex, if_pos h6]
  · intro d hhex h8
    rw [parseCssColor_hash, parseHexColor_hash d hhex, if_neg (by omega), if_pos h8]
    have hd2 : (d.drop 6).length = 2 := by rw [List.length_drop, h8]
    have htk : (d.drop 6).take 2 = d.drop 6 := List.take_of_length_le (by omega)
    rw [htk, jsParseIntHex_all_hex (List.ne_nil_of_length_pos (by omega))
      (fun c hc => hhex c (List.mem_of_mem_drop hc))]
    simp only [Option.map, Int.cast_natCast]

/-- C9 witness. -/
theorem solid_color_parser_spec_witness :
    parseCssColor ('#' :: toChars "abc") = none ∧
    parseCssColor ('#' :: toChars "aabbcc") =
      some { hex := '#' :: toChars "aabbcc", alpha := some 100 } ∧
    parseCssColor (rgbSerial 255 0 16) =
      some { hex := '#' :: (padStart2 (natToHexChars 255) ++ padStart2 (natToHexChars 0) ++
               padStart2 (natToHexChars 16)),
             alpha := some 100 } ∧
    ((-100 : Int) ≤ 100 ∧ (100 : Int) ≤ 100) :=
  ⟨solid_color_parser_spec.1 (toChars "abc") (by decide) (by decide),
   solid_color_parser_spec.2.1 (toChars "aabbcc") (by decide) (by decide),
   solid_color_parser_spec.2.2.2.1 255 0 16 (by decide) (by decide) (by decide),
   solid_color_parser_spec.2.2.2.2.2.2.1 ('#' :: toChars "aabbcc")
     { hex := '#' :: toChars "aabbcc", alpha := some 100 } 100 (by decide) rfl⟩

def witnessSnap : EditorSnapshot :=
  { nodes := [scenarioNode], selectedNodeId := none, currentPageId := none }

def witnessState : EngineState := { initialEngineState with historyPast := [witnessSnap] }

/-- C4 witness. -/
theorem undo_redo_spec_witness :
    (commitPendingSnapshot witnessState).historyPast = [] ++ [witnessSnap] ∧
    undo witnessState =
      { nodes := witnessSnap.nodes,
        selectedNodeId := witnessSnap.selectedNodeId,
        currentPageId := witnessSnap.currentPageId,
        historyPast := [],
        historyFuture := snapshotState witnessState ::
          (commitPendingSnapshot witnessState).historyFuture,
        pendingSnapshot := none } :=
  ⟨by decide, undo_redo_spec.1 witnessState [] witnessSnap (by decide)⟩

end WebBuilder
